import Mathlib

/-!
Verification of the expression-evaluation core of the scientific
calculator (src/scientific_calculator.py).

The development shallowly embeds the Python program:

* the emoji/shorthand substitution chains (`transform_display`, the
  equals-button normalization at lines 233-238) become functions on
  character lists, with Python `str.replace` modelled for the one- and
  two-codepoint patterns the program uses;
* `sympify` (the external symbolic parser, a black box per the spec) is
  modelled as a recursive-descent parser for the expression grammar the
  calculator feeds it: integer numerals, identifiers, function
  application, `+ - * / ** `, unary minus and parentheses;
* `lambdify` plus invocation is modelled by an evaluator over ideal real
  numbers which threads Python exceptions through `Except`; the
  `allowed_funcs` dictionary (lines 179-188) is the registry;
* the three Streamlit handlers (equals button, Calculate Integral,
  Calculate Derivative) are modelled as functions on an explicit session
  state, with their `try/except` clauses catching exactly the exception
  classes named in the source; exceptions outside those classes surface
  as `fault` outcomes (an uncaught Python exception);
* floating point is idealized as `ℝ` and `scipy.integrate.quad` as the
  exact interval integral with a zero error estimate.
-/

/-- Python exception classes that can arise in the modelled fragment. -/
inductive PyExc where
  | sympifyError
  | nameError
  | typeError
  | syntaxError
  | valueError
  | zeroDivisionError
deriving DecidableEq, Repr

/-- The typed error outcomes of the calculator (the spec's taxonomy,
restricted to the errors the UI actually reports: the evaluate path shows
one "Invalid Expression" banner, the calculus paths show integration and
differentiation error banners). -/
inductive CalcError where
  | invalidExpression
  | integrationError
  | differentiationError
deriving DecidableEq, Repr

/-- A Python value as produced by the lambdified callable: either a real
number, or a function object (an entry of `allowed_funcs` that a free
symbol was bound to, e.g. when the expression is the bare name `abs`). -/
inductive PyVal where
  | num (r : ℝ)
  | fnObj (name : String)

/-- An entry of the `allowed_funcs` dictionary: a numeric constant
(`pi`, `e`) or a numeric function. Functions may raise (model of
`math.factorial` raising `ValueError` on negative arguments). -/
inductive RegEntry where
  | constE (r : ℝ)
  | fnE (f : ℝ → Except PyExc ℝ)

/-- Symbolic expressions: the model of the SymPy expression trees that
`sympify` produces on the calculator's input grammar. -/
inductive SExpr where
  | num (q : ℚ)
  | sym (name : String)
  | cpi
  | ce
  | neg (a : SExpr)
  | add (a b : SExpr)
  | sub (a b : SExpr)
  | mul (a b : SExpr)
  | div (a b : SExpr)
  | pow (a b : SExpr)
  | app (f : String) (a : SExpr)
deriving DecidableEq, Repr

/-- Decidable equality of `Except` results, for concrete evaluation. -/
instance instDecEqExcept {ε α : Type} [DecidableEq ε] [DecidableEq α] :
    DecidableEq (Except ε α) := fun x y =>
  match x, y with
  | .error a, .error b =>
    if h : a = b then .isTrue (by rw [h])
    else .isFalse (fun hc => h (by cases hc; rfl))
  | .error _, .ok _ => .isFalse (fun hc => Except.noConfusion hc)
  | .ok _, .error _ => .isFalse (fun hc => Except.noConfusion hc)
  | .ok a, .ok b =>
    if h : a = b then .isTrue (by rw [h])
    else .isFalse (fun hc => h (by cases hc; rfl))

/-! ## Python `str.replace`, for the patterns the program uses

All substitution patterns in the source are one or two codepoints long
(the two-codepoint one is the heavy-multiplication emoji `U+2716 U+FE0F`),
so Python's left-to-right non-overlapping `str.replace` is modelled by
the two structurally recursive functions below. -/

/-- Python `s.replace(p, rep)` for a single-codepoint pattern `p`. -/
def replace1 (p : Char) (rep : List Char) : List Char → List Char
  | [] => []
  | c :: cs => (if c = p then rep else [c]) ++ replace1 p rep cs

/-- Python `s.replace(p1p2, rep)` for a two-codepoint pattern,
left-to-right and non-overlapping. -/
def replace2 (p1 p2 : Char) (rep : List Char) : List Char → List Char
  | [] => []
  | [c] => [c]
  | c1 :: c2 :: cs =>
    if c1 = p1 ∧ c2 = p2 then rep ++ replace2 p1 p2 rep cs
    else c1 :: replace2 p1 p2 rep (c2 :: cs)

/-- Model of `transform_display` (source lines 157-165): emoji operators
to display glyphs, in source order: heavy plus to `+`, heavy minus to
`-`, heavy multiplication (`U+2716 U+FE0F`) to `×` (`U+00D7`), heavy
division (`U+2797`) to `÷` (`U+00F7`). -/
def transform_display (s : String) : String :=
  String.mk (replace1 '➗' ['÷']
    (replace2 '✖' '️' ['×']
      (replace1 '➖' ['-']
        (replace1 '➕' ['+'] s.data))))

/-- Model of the equals-button normalization (source lines 233-238), in
source order: `π` to `pi`, heavy plus to `+`, heavy minus to `-`, heavy
division to `/`, heavy multiplication to `*`, `^` to `**`. -/
def normalizeEval (s : String) : String :=
  String.mk (replace1 '^' ['*', '*']
    (replace2 '✖' '️' ['*']
      (replace1 '➗' ['/']
        (replace1 '➖' ['-']
          (replace1 '➕' ['+']
            (replace1 'π' ['p', 'i'] s.data))))))

/-! ## The model of `sympify`

A fuel-indexed recursive-descent parser for the grammar fragment the
calculator feeds to SymPy (Python expression grammar restricted to the
calculator's vocabulary):

  E  := T ((`+` | `-`) T)*          (left associative)
  T  := U ((`*` | `/`) U)*          (left associative)
  U  := `-` U | Pw                  (unary minus)
  Pw := P (`**` U)?                 (right associative power)
  P  := numeral | ident (`(` E `)`)? | `(` E `)`

Numerals are digit runs, identifiers are alphabetic runs; `pi` and `e`
denote the SymPy constants. Fuel decreases on every recursive call; the
wrapper supplies fuel `9 * length + 9`, which is shown sufficient. -/

/-- Numeric value of a digit character. -/
def digVal (c : Char) : ℕ := c.toNat - '0'.toNat

/-- Maximal-munch digit run, folding into an accumulator. -/
def numGo (acc : ℕ) : List Char → ℕ × List Char
  | [] => (acc, [])
  | c :: cs => if c.isDigit then numGo (acc * 10 + digVal c) cs else (acc, c :: cs)

/-- Maximal-munch alphabetic run. -/
def alphaGo : List Char → List Char × List Char
  | [] => ([], [])
  | c :: cs =>
    if c.isAlpha then
      let p := alphaGo cs
      (c :: p.1, p.2)
    else ([], c :: cs)

mutual

/-- Primary: numeral, identifier or call, parenthesized expression. -/
def parseP : ℕ → List Char → Option (SExpr × List Char)
  | 0, _ => none
  | _ + 1, [] => none
  | f + 1, c :: cs =>
    if c.isDigit then
      let p := numGo (digVal c) cs
      some (.num (p.1 : ℚ), p.2)
    else if c.isAlpha then
      let p := alphaGo cs
      let name := String.mk (c :: p.1)
      match p.2 with
      | '(' :: r2 =>
        match parseE f r2 with
        | some (e, ')' :: r3) => some (.app name e, r3)
        | _ => none
      | r =>
        if name = "pi" then some (.cpi, r)
        else if name = "e" then some (.ce, r)
        else some (.sym name, r)
    else if c = '(' then
      match parseE f cs with
      | some (e, ')' :: r2) => some (e, r2)
      | _ => none
    else none

/-- Power: a primary optionally raised via `**` to a unary expression. -/
def parsePw : ℕ → List Char → Option (SExpr × List Char)
  | 0, _ => none
  | f + 1, cs =>
    match parseP f cs with
    | none => none
    | some (a, r) =>
      match r with
      | '*' :: '*' :: r2 =>
        match parseU f r2 with
        | some (b, r3) => some (.pow a b, r3)
        | none => none
      | _ => some (a, r)

/-- Unary: an optional chain of unary minus signs before a power. -/
def parseU : ℕ → List Char → Option (SExpr × List Char)
  | 0, _ => none
  | f + 1, cs =>
    match cs with
    | '-' :: r =>
      match parseU f r with
      | some (a, r2) => some (.neg a, r2)
      | none => none
    | _ => parsePw f cs

/-- Term loop: folds `*` and `/` continuations onto an accumulator. -/
def parseT1 : ℕ → SExpr → List Char → Option (SExpr × List Char)
  | 0, _, _ => none
  | f + 1, acc, cs =>
    match cs with
    | '*' :: r =>
      match parseU f r with
      | some (b, r2) => parseT1 f (.mul acc b) r2
      | none => none
    | '/' :: r =>
      match parseU f r with
      | some (b, r2) => parseT1 f (.div acc b) r2
      | none => none
    | _ => some (acc, cs)

/-- Term: a unary expression followed by the `*`/`/` loop. -/
def parseT : ℕ → List Char → Option (SExpr × List Char)
  | 0, _ => none
  | f + 1, cs =>
    match parseU f cs with
    | some (a, r) => parseT1 f a r
    | none => none

/-- Expression loop: folds `+` and `-` continuations onto an accumulator. -/
def parseE1 : ℕ → SExpr → List Char → Option (SExpr × List Char)
  | 0, _, _ => none
  | f + 1, acc, cs =>
    match cs with
    | '+' :: r =>
      match parseT f r with
      | some (b, r2) => parseE1 f (.add acc b) r2
      | none => none
    | '-' :: r =>
      match parseT f r with
      | some (b, r2) => parseE1 f (.sub acc b) r2
      | none => none
    | _ => some (acc, cs)

/-- Expression: a term followed by the `+`/`-` loop. -/
def parseE : ℕ → List Char → Option (SExpr × List Char)
  | 0, _ => none
  | f + 1, cs =>
    match parseT f cs with
    | some (a, r) => parseE1 f a r
    | none => none

end

/-- Fuel that is always sufficient for the parser on `cs`. -/
def pfuel (cs : List Char) : ℕ := 9 * cs.length + 9

/-- Model of `sympify` on the calculator's grammar fragment: parse the
whole string or raise `SympifyError`. SymPy's automatic evaluation of
constant subexpressions is not modelled at the tree level; it is
invisible to the program's observable results, which evaluate the tree
anyway. -/
def sympifyModel (s : String) : Except PyExc SExpr :=
  match parseE (pfuel s.data) s.data with
  | some (e, []) => .ok e
  | _ => .error .sympifyError

/-! ## The registry and the model of `lambdify` plus invocation -/

open Classical in
/-- Model of `math.factorial`: defined on the natural numbers, raising
`ValueError` otherwise (CPython raises `ValueError` for negative integer
arguments in every version; the model also uses `ValueError` for
non-integral arguments, which newer CPython reports as `TypeError` —
no claim exercises that corner). -/
noncomputable def pyFactorial (r : ℝ) : Except PyExc ℝ :=
  if h : ∃ n : ℕ, r = (n : ℝ) then .ok ((Nat.factorial h.choose : ℕ) : ℝ)
  else .error .valueError

/-- Model of the `allowed_funcs` dictionary (source lines 179-188), with
NumPy's floating-point functions idealized as the corresponding real
functions: `log` is the base-10 logarithm, `ln` the natural one. -/
noncomputable def registryModel : List (String × RegEntry) :=
  [("sin", .fnE fun r => .ok (Real.sin r)),
   ("cos", .fnE fun r => .ok (Real.cos r)),
   ("tan", .fnE fun r => .ok (Real.tan r)),
   ("asin", .fnE fun r => .ok (Real.arcsin r)),
   ("acos", .fnE fun r => .ok (Real.arccos r)),
   ("atan", .fnE fun r => .ok (Real.arctan r)),
   ("sinh", .fnE fun r => .ok (Real.sinh r)),
   ("cosh", .fnE fun r => .ok (Real.cosh r)),
   ("tanh", .fnE fun r => .ok (Real.tanh r)),
   ("log", .fnE fun r => .ok (Real.logb 10 r)),
   ("ln", .fnE fun r => .ok (Real.log r)),
   ("sqrt", .fnE fun r => .ok (Real.sqrt r)),
   ("exp", .fnE fun r => .ok (Real.exp r)),
   ("pi", .constE Real.pi),
   ("e", .constE (Real.exp 1)),
   ("abs", .fnE fun r => .ok |r|),
   ("factorial", .fnE pyFactorial)]

/-- Association-list lookup, the model of Python dictionary lookup. -/
def lookupA {α : Type} : List (String × α) → String → Option α
  | [], _ => none
  | (k, v) :: rest, n => if k = n then some v else lookupA rest n

/-- The names of the registry, in source order. -/
def regKeys : List String :=
  ["sin", "cos", "tan", "asin", "acos", "atan", "sinh", "cosh", "tanh",
   "log", "ln", "sqrt", "exp", "pi", "e", "abs", "factorial"]

open Classical in
/-- Truncation toward zero (the conversion NumPy integer dtypes apply). -/
noncomputable def npTrunc (r : ℝ) : ℝ := ((if 0 ≤ r then ⌊r⌋ else ⌈r⌉ : ℤ) : ℝ)

/-- Round half to even, idealized as `round`. -/
noncomputable def npRound (r : ℝ) : ℝ := ((round r : ℤ) : ℝ)

open Classical in
/-- NumPy truthiness of a number, as `0`/`1`. -/
noncomputable def npBool (r : ℝ) : ℝ := if r = 0 then 0 else 1

open Classical in
/-- Model of the `'numpy'` member of `lambdify`'s
`modules=[local_dict, 'numpy']` (source line 146): the NumPy namespace
names whose application to one numeric argument returns a value, each
idealized over ℝ. NumPy ufuncs do not raise on domain errors (they
return `nan` with a warning), so the entries are total; reductions,
array and dtype constructors are idealized by their effect on a scalar
(an array-, string- or tuple-valued result is idealized as the number it
holds, a boolean as `0`/`1`). Names of the namespace whose one-argument
application raises — binary ufuncs, constants, submodules — are omitted:
in the program they raise `TypeError`, which `safe_eval` converts to the
same typed error as an unknown name, so they are observationally
interchangeable with absent names at the granularity the claims use. -/
noncomputable def numpyFallback : List (String × (ℝ → ℝ)) :=
  [("abs", fun r => |r|), ("absolute", fun r => |r|),
   ("fabs", fun r => |r|),
   ("sign", fun r => if r < 0 then -1 else if r = 0 then 0 else 1),
   ("signbit", fun r => if r < 0 then 1 else 0),
   ("floor", fun r => ((⌊r⌋ : ℤ) : ℝ)), ("ceil", fun r => ((⌈r⌉ : ℤ) : ℝ)),
   ("trunc", npTrunc), ("fix", npTrunc),
   ("rint", npRound), ("round", npRound), ("around", npRound),
   ("round_", npRound),
   ("sin", Real.sin), ("cos", Real.cos), ("tan", Real.tan),
   ("arcsin", Real.arcsin), ("arccos", Real.arccos),
   ("arctan", Real.arctan),
   ("sinh", Real.sinh), ("cosh", Real.cosh), ("tanh", Real.tanh),
   ("arcsinh", Real.arsinh),
   ("arccosh", fun r => Real.log (r + Real.sqrt (r ^ 2 - 1))),
   ("arctanh", fun r => Real.log ((1 + r) / (1 - r)) / 2),
   ("deg2rad", fun r => r * Real.pi / 180),
   ("radians", fun r => r * Real.pi / 180),
   ("rad2deg", fun r => r * 180 / Real.pi),
   ("degrees", fun r => r * 180 / Real.pi),
   ("exp", Real.exp), ("exp2", fun r => (2 : ℝ) ^ r),
   ("expm1", fun r => Real.exp r - 1),
   ("log", Real.log), ("log2", Real.logb 2), ("log10", Real.logb 10),
   ("log1p", fun r => Real.log (1 + r)),
   ("sqrt", Real.sqrt),
   ("cbrt", fun r => if 0 ≤ r then r ^ ((1 : ℝ) / 3)
     else -((-r) ^ ((1 : ℝ) / 3))),
   ("square", fun r => r * r), ("reciprocal", fun r => r⁻¹),
   ("positive", fun r => r), ("negative", fun r => -r),
   ("conj", fun r => r), ("conjugate", fun r => r),
   ("real", fun r => r), ("imag", fun _ => 0),
   ("angle", fun r => if r < 0 then Real.pi else 0),
   ("sinc", fun r => if r = 0 then 1
     else Real.sin (Real.pi * r) / (Real.pi * r)),
   ("i0", fun r => tsum (fun n : ℕ =>
     (r / 2) ^ (2 * n) / ((Nat.factorial n : ℝ)) ^ 2)),
   ("spacing", fun _ => 0),
   ("isfinite", fun _ => 1), ("isinf", fun _ => 0), ("isnan", fun _ => 0),
   ("isneginf", fun _ => 0), ("isposinf", fun _ => 0),
   ("isreal", fun _ => 1), ("isrealobj", fun _ => 1),
   ("iscomplex", fun _ => 0), ("iscomplexobj", fun _ => 0),
   ("isscalar", fun _ => 1), ("iterable", fun _ => 0),
   ("all", npBool), ("any", npBool), ("alltrue", npBool),
   ("sometrue", npBool),
   ("sum", fun r => r), ("nansum", fun r => r),
   ("prod", fun r => r), ("nanprod", fun r => r),
   ("cumsum", fun r => r), ("nancumsum", fun r => r),
   ("cumprod", fun r => r), ("nancumprod", fun r => r),
   ("mean", fun r => r), ("nanmean", fun r => r),
   ("median", fun r => r), ("nanmedian", fun r => r),
   ("average", fun r => r),
   ("std", fun _ => 0), ("nanstd", fun _ => 0),
   ("var", fun _ => 0), ("nanvar", fun _ => 0), ("ptp", fun _ => 0),
   ("amax", fun r => r), ("amin", fun r => r),
   ("max", fun r => r), ("min", fun r => r),
   ("nanmax", fun r => r), ("nanmin", fun r => r),
   ("argmax", fun _ => 0), ("argmin", fun _ => 0),
   ("nanargmax", fun _ => 0), ("nanargmin", fun _ => 0),
   ("sort", fun r => r), ("msort", fun r => r), ("unique", fun r => r),
   ("ravel", fun r => r), ("squeeze", fun r => r),
   ("transpose", fun r => r),
   ("atleast_1d", fun r => r), ("atleast_2d", fun r => r),
   ("atleast_3d", fun r => r), ("copy", fun r => r),
   ("array", fun r => r), ("asarray", fun r => r),
   ("asanyarray", fun r => r), ("ascontiguousarray", fun r => r),
   ("asfortranarray", fun r => r), ("asfarray", fun r => r),
   ("asarray_chkfinite", fun r => r), ("diagflat", fun r => r),
   ("matrix", fun r => r), ("mat", fun r => r), ("ndarray", fun r => r),
   ("poly", fun r => r), ("poly1d", fun r => r),
   ("ndim", fun _ => 0), ("size", fun _ => 1), ("shape", fun _ => 0),
   ("zeros", fun _ => 0), ("ones", fun _ => 1), ("empty", fun _ => 0),
   ("eye", fun _ => 1), ("identity", fun _ => 1),
   ("arange", fun r => r),
   ("zeros_like", fun _ => 0), ("ones_like", fun _ => 1),
   ("empty_like", fun _ => 0),
   ("frexp", fun r => r), ("modf", fun r => r),
   ("real_if_close", fun r => r),
   ("byte", npTrunc), ("short", npTrunc), ("intc", npTrunc),
   ("int_", npTrunc), ("longlong", npTrunc),
   ("int8", npTrunc), ("int16", npTrunc), ("int32", npTrunc),
   ("int64", npTrunc), ("intp", npTrunc), ("int0", npTrunc),
   ("ubyte", npTrunc), ("ushort", npTrunc), ("uintc", npTrunc),
   ("uint", npTrunc), ("ulonglong", npTrunc),
   ("uint8", npTrunc), ("uint16", npTrunc), ("uint32", npTrunc),
   ("uint64", npTrunc), ("uintp", npTrunc), ("uint0", npTrunc),
   ("half", fun r => r), ("float16", fun r => r),
   ("single", fun r => r), ("float32", fun r => r),
   ("double", fun r => r), ("float64", fun r => r),
   ("float_", fun r => r), ("longdouble", fun r => r),
   ("longfloat", fun r => r),
   ("csingle", fun r => r), ("singlecomplex", fun r => r),
   ("cfloat", fun r => r), ("cdouble", fun r => r),
   ("complex64", fun r => r), ("complex128", fun r => r),
   ("complex_", fun r => r), ("clongdouble", fun r => r),
   ("clongfloat", fun r => r), ("longcomplex", fun r => r),
   ("bool_", npBool), ("bool8", npBool),
   ("object_", fun r => r), ("str_", fun r => r),
   ("unicode_", fun r => r), ("string_", fun r => r),
   ("bytes_", fun r => r), ("timedelta64", fun r => r)]

/-- Model of the binding step `local_dict.get(str(s), 0)` (source line
150): a free symbol is bound to the dictionary entry when the name is
present — a number for constant entries, the function object itself for
function entries — and to the integer `0` otherwise. -/
noncomputable def envBinding (reg : List (String × RegEntry)) (n : String) : PyVal :=
  match lookupA reg n with
  | some (.constE r) => .num r
  | some (.fnE _) => .fnObj n
  | none => .num 0

open Classical in
/-- Model of invoking the lambdified callable: evaluate the tree with
free symbols resolved through `env` (lambdify parameters, which shadow
every namespace) and applied names resolved through the
`modules=[local_dict, 'numpy']` namespace — the dictionary `reg` first,
then the `numpyFallback` table. Arithmetic on a function object raises
`TypeError`, calling a constant raises `TypeError`, an applied name
resolved by neither layer raises `NameError` (Python raises it when the
generated code first evaluates the unknown name), and division by zero
raises `ZeroDivisionError`. -/
noncomputable def evalSym (reg : List (String × RegEntry)) (env : String → PyVal) :
    SExpr → Except PyExc PyVal
  | .num q => .ok (.num (q : ℝ))
  | .sym n => .ok (env n)
  | .cpi => .ok (.num Real.pi)
  | .ce => .ok (.num (Real.exp 1))
  | .neg a => do
    match ← evalSym reg env a with
    | .num r => .ok (.num (-r))
    | .fnObj _ => .error .typeError
  | .add a b => do
    match ← evalSym reg env a, ← evalSym reg env b with
    | .num x, .num y => .ok (.num (x + y))
    | _, _ => .error .typeError
  | .sub a b => do
    match ← evalSym reg env a, ← evalSym reg env b with
    | .num x, .num y => .ok (.num (x - y))
    | _, _ => .error .typeError
  | .mul a b => do
    match ← evalSym reg env a, ← evalSym reg env b with
    | .num x, .num y => .ok (.num (x * y))
    | _, _ => .error .typeError
  | .div a b => do
    match ← evalSym reg env a, ← evalSym reg env b with
    | .num x, .num y =>
      if y = 0 then .error .zeroDivisionError else .ok (.num (x / y))
    | _, _ => .error .typeError
  | .pow a b => do
    match ← evalSym reg env a, ← evalSym reg env b with
    | .num x, .num y => .ok (.num (x ^ y))
    | _, _ => .error .typeError
  | .app f a =>
    match lookupA reg f with
    | some (.fnE g) => do
      match ← evalSym reg env a with
      | .num r => (g r).map .num
      | .fnObj _ => .error .typeError
    | some (.constE _) => .error .typeError
    | none =>
      match lookupA numpyFallback f with
      | some g => do
        match ← evalSym reg env a with
        | .num r => .ok (.num (g r))
        | .fnObj _ => .error .typeError
      | none => .error .nameError

/-- Outcome of one evaluate request: a value, the typed error the
handler converts caught exceptions into, or an uncaught fault (a Python
exception escaping the handler). -/
inductive EvalOutcome where
  | ok (v : PyVal)
  | err (e : CalcError)
  | fault (exc : PyExc)

/-- The exception classes `safe_eval` catches (source line 153):
`SympifyError`, `NameError`, `TypeError`, `SyntaxError`. -/
def caughtEval (e : PyExc) : Bool :=
  match e with
  | .sympifyError | .nameError | .typeError | .syntaxError => true
  | _ => false

/-- Model of `safe_eval` (source lines 132-155): sympify, bind every
free symbol through `envBinding`, invoke the callable; any exception in
the caught classes becomes the "Invalid Expression" typed error, any
other exception escapes as a fault. -/
noncomputable def safe_eval (s : String) (localDict : List (String × RegEntry)) :
    EvalOutcome :=
  match sympifyModel s with
  | .error exc => if caughtEval exc then .err .invalidExpression else .fault exc
  | .ok e =>
    match evalSym localDict (envBinding localDict) e with
    | .ok v => .ok v
    | .error exc => if caughtEval exc then .err .invalidExpression else .fault exc

/-! ## The model of SymPy numeric evaluation (calculus paths)

The integral and derivative handlers resolve names through SymPy itself
(`lambdify(x, f, 'numpy')`, `.evalf()`), not through `allowed_funcs`;
in particular `log` is SymPy's natural logarithm there. -/

/-- The numeric interpretations SymPy gives to the function names of the
modelled fragment. -/
noncomputable def sympyFn (f : String) : Option (ℝ → ℝ) :=
  match f with
  | "sin" => some Real.sin
  | "cos" => some Real.cos
  | "tan" => some Real.tan
  | "asin" => some Real.arcsin
  | "acos" => some Real.arccos
  | "atan" => some Real.arctan
  | "sinh" => some Real.sinh
  | "cosh" => some Real.cosh
  | "tanh" => some Real.tanh
  | "exp" => some Real.exp
  | "log" => some Real.log
  | "ln" => some Real.log
  | "sqrt" => some Real.sqrt
  | "abs" => some (fun r => |r|)
  | _ => none

open Classical in
/-- Numeric evaluation of a tree with symbols resolved through `env`:
the model of the single-argument callable `lambdify` builds for the
integral handler and of `.evalf()` after substitution. Returns `none`
where SymPy would not produce a number. -/
noncomputable def evalNumEnv (env : String → Option ℝ) : SExpr → Option ℝ
  | .num q => some (q : ℝ)
  | .sym n => env n
  | .cpi => some Real.pi
  | .ce => some (Real.exp 1)
  | .neg a => (evalNumEnv env a).map (fun r => -r)
  | .add a b => do pure ((← evalNumEnv env a) + (← evalNumEnv env b))
  | .sub a b => do pure ((← evalNumEnv env a) - (← evalNumEnv env b))
  | .mul a b => do pure ((← evalNumEnv env a) * (← evalNumEnv env b))
  | .div a b => do
    let x ← evalNumEnv env a
    let y ← evalNumEnv env b
    if y = 0 then none else pure (x / y)
  | .pow a b => do pure ((← evalNumEnv env a) ^ (← evalNumEnv env b))
  | .app f a => do pure ((← sympyFn f) (← evalNumEnv env a))

/-- The free symbols of a tree (`free_symbols`), as a list. -/
def freeSymsList : SExpr → List String
  | .num _ | .cpi | .ce => []
  | .sym n => [n]
  | .neg a => freeSymsList a
  | .add a b | .sub a b | .mul a b | .div a b | .pow a b =>
    freeSymsList a ++ freeSymsList b
  | .app _ a => freeSymsList a

/-! ## Symbolic differentiation and substitution

`diff` and `subs` on the modelled trees. SymPy's `Mul`/`Add`/`Pow`
constructors drop arithmetic identities automatically; the smart
constructors below mirror exactly the simplifications needed for the
shapes the derivative rules produce. -/

/-- Addition with SymPy's automatic dropping of zero summands. -/
def sadd (a b : SExpr) : SExpr :=
  if a = .num 0 then b else if b = .num 0 then a else .add a b

/-- Subtraction with automatic simplification of zero operands. -/
def ssub (a b : SExpr) : SExpr :=
  if b = .num 0 then a else if a = .num 0 then .neg b else .sub a b

/-- Multiplication with automatic absorption of zero and one. -/
def smul (a b : SExpr) : SExpr :=
  if a = .num 0 ∨ b = .num 0 then .num 0
  else if a = .num 1 then b
  else if b = .num 1 then a
  else .mul a b

/-- Division with automatic simplification of zero numerator and unit
denominator. -/
def sdiv (a b : SExpr) : SExpr :=
  if a = .num 0 then .num 0 else if b = .num 1 then a else .div a b

/-- Power with automatic simplification of exponents one and zero. -/
def spow (a b : SExpr) : SExpr :=
  if b = .num 1 then a else if b = .num 0 then .num 1 else .pow a b

/-- Negation folding a numeric literal. -/
def sneg (a : SExpr) : SExpr :=
  match a with
  | .num q => .num (-q)
  | _ => .neg a

/-- The SymPy derivative of the function named `f` at argument `a`
(before the chain-rule factor). Names outside the table produce an
unevaluated placeholder application, the model of SymPy's `Derivative`
object. -/
def dtab (f : String) (a : SExpr) : SExpr :=
  match f with
  | "sin" => .app "cos" a
  | "cos" => sneg (.app "sin" a)
  | "tan" => .add (.pow (.app "tan" a) (.num 2)) (.num 1)
  | "exp" => .app "exp" a
  | "ln" => sdiv (.num 1) a
  | "log" => sdiv (.num 1) a
  | "sqrt" => sdiv (.num 1) (smul (.num 2) (.app "sqrt" a))
  | _ => .app (String.append "DerivativeOf" f) a

/-- Model of `sympy_func.diff(x_sym)` (source line 325): the exact
symbolic derivative with respect to the symbol named `x`. -/
def diffS (x : String) : SExpr → SExpr
  | .num _ => .num 0
  | .cpi => .num 0
  | .ce => .num 0
  | .sym n => if n = x then .num 1 else .num 0
  | .neg a => sneg (diffS x a)
  | .add a b => sadd (diffS x a) (diffS x b)
  | .sub a b => ssub (diffS x a) (diffS x b)
  | .mul a b => sadd (smul (diffS x a) b) (smul a (diffS x b))
  | .div a b =>
    sdiv (ssub (smul (diffS x a) b) (smul a (diffS x b))) (spow b (.num 2))
  | .pow a b =>
    match b with
    | .num q => smul (smul (.num q) (spow a (.num (q - 1)))) (diffS x a)
    | _ =>
      smul (.pow a b)
        (sadd (smul (diffS x b) (.app "ln" a)) (sdiv (smul b (diffS x a)) a))
  | .app f a => smul (dtab f a) (diffS x a)

/-- Model of `.subs(x_sym, v)`: substitute `v` for the symbol named `x`. -/
def substS (x : String) (v : SExpr) : SExpr → SExpr
  | .num q => .num q
  | .cpi => .cpi
  | .ce => .ce
  | .sym n => if n = x then v else .sym n
  | .neg a => .neg (substS x v a)
  | .add a b => .add (substS x v a) (substS x v b)
  | .sub a b => .sub (substS x v a) (substS x v b)
  | .mul a b => .mul (substS x v a) (substS x v b)
  | .div a b => .div (substS x v a) (substS x v b)
  | .pow a b => .pow (substS x v a) (substS x v b)
  | .app f a => .app f (substS x v a)

/-- Result of `.evalf()`: a number when SymPy can evaluate the
expression numerically, otherwise the expression left symbolic. -/
inductive ERes where
  | numR (r : ℝ)
  | exprR (e : SExpr)

/-- Model of `.evalf()` on a tree with no remaining bindings. -/
noncomputable def evalfModel (e : SExpr) : ERes :=
  match evalNumEnv (fun _ => none) e with
  | some r => .numR r
  | none => .exprR e

/-! ## The session state and the three request handlers -/

/-- The caller-visible Streamlit session state: the expression under
construction and the history log. -/
structure CalcState where
  expression : String
  history : List String

/-- Model of `scipy.integrate.quad` idealized as exact quadrature: the
value is the interval integral (which handles reversed limits by sign,
as `quad` does) and the error estimate is zero. -/
noncomputable def quadModel (g : ℝ → ℝ) (lo hi : ℝ) : ℝ × ℝ :=
  (∫ t in lo..hi, g t, 0)

/-- Outcome of one Calculate Integral request. -/
inductive IntOutcome where
  | ok (value errEst : ℝ)
  | err (e : CalcError)
  | fault (exc : PyExc)

/-- Outcome of one Calculate Derivative request. -/
inductive DiffOutcome where
  | ok (dexpr : SExpr) (val : ERes)
  | err (e : CalcError)
  | fault (exc : PyExc)

/-- The exception classes the two calculus handlers catch (source lines
306 and 332): `SympifyError`, `TypeError`, `ValueError`. -/
def caughtCalculus (e : PyExc) : Bool :=
  match e with
  | .sympifyError | .typeError | .valueError => true
  | _ => false

/-- Model of the equals-button handler (source lines 230-244),
parameterized by the Python `str` formatting of result values. On a
non-empty expression it normalizes, calls `safe_eval` with
`allowed_funcs`, and on success appends one history line and replaces
the expression with the formatted result; when the expression is empty
nothing happens (`none` outcome). -/
noncomputable def equalsH (fmt : PyVal → String) (st : CalcState) :
    CalcState × Option EvalOutcome :=
  if st.expression = "" then (st, none)
  else
    match safe_eval (normalizeEval st.expression) registryModel with
    | .ok v =>
      ({ expression := fmt v,
         history := st.history ++
           [transform_display st.expression ++ " = " ++ fmt v] },
       some (.ok v))
    | .err e => (st, some (.err e))
    | .fault exc => (st, some (.fault exc))

/-- The body of the Calculate Integral `try` block (source lines
296-304): sympify the variable and the function, lambdify in the single
variable, run quadrature. A non-symbol variable (e.g. `Integer(2)`)
makes `lambdify` emit a generated function whose parameter is not an
identifier, raising `SyntaxError` when the generated code is compiled —
a class the handler's `except` tuple does not cover, so it escapes as a
fault. A free symbol of the integrand other than the variable is
unresolvable in the generated code and raises `NameError` when `quad`
first invokes the callable. -/
noncomputable def integralCore (funcStr varStr : String) (lo hi : ℚ) :
    Except PyExc (ℝ × ℝ) := do
  let xv ← sympifyModel varStr
  let fe ← sympifyModel funcStr
  match xv with
  | .sym n =>
    if (freeSymsList fe).all (fun m => m = n) then
      .ok (quadModel
        (fun t => (evalNumEnv (fun m => if m = n then some t else none) fe).getD 0)
        (lo : ℝ) (hi : ℝ))
    else .error .nameError
  | _ => .error .syntaxError

/-- Model of the Calculate Integral handler (source lines 295-307),
parameterized by the Python formatting of numbers. On success it shows
the value and the error estimate and appends one history line; a caught
exception produces the integration error banner; any other exception
escapes as a fault. -/
noncomputable def integralH (fmtQ : ℚ → String) (fmtR : ℝ → String)
    (st : CalcState) (funcStr varStr : String) (lo hi : ℚ) :
    CalcState × IntOutcome :=
  match integralCore funcStr varStr lo hi with
  | .ok (v, er) =>
    ({ st with history := st.history ++
        ["∫(" ++ funcStr ++ ") from " ++ fmtQ lo ++ " to " ++ fmtQ hi ++
         " = " ++ fmtR v] },
     .ok v er)
  | .error exc =>
    if caughtCalculus exc then (st, .err .integrationError) else (st, .fault exc)

/-- The body of the Calculate Derivative `try` block (source lines
321-330): sympify the variable and the function, differentiate
symbolically, substitute the point and evaluate. Differentiating with
respect to a non-symbol raises `ValueError` in SymPy. -/
noncomputable def derivCore (funcStr varStr : String) (point : ℚ) :
    Except PyExc (SExpr × ERes) := do
  let xv ← sympifyModel varStr
  let fe ← sympifyModel funcStr
  match xv with
  | .sym n =>
    let d := diffS n fe
    .ok (d, evalfModel (substS n (.num point) d))
  | _ => .error .valueError

/-- Model of the Calculate Derivative handler (source lines 320-333),
parameterized by the Python formatting of values. On success it shows
the numeric value and the symbolic derivative and appends one history
line; a caught exception produces the differentiation error banner; any
other exception escapes as a fault. -/
noncomputable def derivH (fmtQ : ℚ → String) (fmtE : ERes → String)
    (st : CalcState) (funcStr varStr : String) (point : ℚ) :
    CalcState × DiffOutcome :=
  match derivCore funcStr varStr point with
  | .ok (d, v) =>
    ({ st with history := st.history ++
        ["d/d" ++ varStr ++ "(" ++ funcStr ++ ") at " ++ fmtQ point ++
         " = " ++ fmtE v] },
     .ok d v)
  | .error exc =>
    if caughtCalculus exc then (st, .err .differentiationError) else (st, .fault exc)

/-! ## The input grammar as an inductive family

`AG` is the abstract syntax of the well-formed input strings of the
modelled grammar; `renderA` prints a tree back to the string it stands
for, `wfA` checks the precedence stratification (so that the image of
`renderA` on well-formed trees is exactly the set of grammar-derivable
strings), and `canonA` is the SymPy tree `sympify` produces for it.
These are the vehicles for quantifying over "every well-formed
expression string". -/

/-- Decimal rendering of a natural number, with explicit fuel. -/
def natRenderF : ℕ → ℕ → List Char
  | 0, _ => []
  | f + 1, n =>
    if n < 10 then [Nat.digitChar n]
    else natRenderF f (n / 10) ++ [Nat.digitChar (n % 10)]

/-- Decimal rendering of a natural number. -/
def natRender (n : ℕ) : List Char := natRenderF (n + 1) n

/-- Grammar trees: the constructors of `SExpr` plus explicit
parenthesization. -/
inductive AG where
  | num (n : ℕ)
  | sym (name : String)
  | cpi
  | ce
  | neg (a : AG)
  | add (a b : AG)
  | sub (a b : AG)
  | mul (a b : AG)
  | div (a b : AG)
  | pow (a b : AG)
  | app (f : String) (a : AG)
  | paren (a : AG)
deriving DecidableEq, Repr

/-- Precedence level of the head constructor: 0 for additive, 1 for
multiplicative, 2 for unary minus, 3 for power, 4 for primaries. -/
def rankA : AG → ℕ
  | .add _ _ | .sub _ _ => 0
  | .mul _ _ | .div _ _ => 1
  | .neg _ => 2
  | .pow _ _ => 3
  | _ => 4

/-- A nonempty, purely alphabetic name. -/
def isIdentStr (s : String) : Bool := !s.data.isEmpty && s.data.all Char.isAlpha

/-- Well-formedness: operands sit at admissible precedence levels,
names are identifiers, and a bare symbol is not one of the constant
names `pi`, `e` (which the parser resolves to the constants). -/
def wfA : AG → Bool
  | .num _ => true
  | .sym n => isIdentStr n && n != "pi" && n != "e"
  | .cpi => true
  | .ce => true
  | .neg a => wfA a && decide (2 ≤ rankA a)
  | .add a b | .sub a b => wfA a && wfA b && decide (1 ≤ rankA b)
  | .mul a b | .div a b =>
    wfA a && wfA b && decide (1 ≤ rankA a) && decide (2 ≤ rankA b)
  | .pow a b => wfA a && wfA b && decide (4 ≤ rankA a) && decide (2 ≤ rankA b)
  | .app f a => isIdentStr f && wfA a
  | .paren a => wfA a

/-- Print a grammar tree back to its string. -/
def renderA : AG → List Char
  | .num n => natRender n
  | .sym n => n.data
  | .cpi => ['p', 'i']
  | .ce => ['e']
  | .neg a => '-' :: renderA a
  | .add a b => renderA a ++ '+' :: renderA b
  | .sub a b => renderA a ++ '-' :: renderA b
  | .mul a b => renderA a ++ '*' :: renderA b
  | .div a b => renderA a ++ '/' :: renderA b
  | .pow a b => renderA a ++ '*' :: '*' :: renderA b
  | .app f a => f.data ++ '(' :: (renderA a ++ [')'])
  | .paren a => '(' :: (renderA a ++ [')'])

/-- The SymPy tree of a grammar tree: parentheses disappear. -/
def canonA : AG → SExpr
  | .num n => .num (n : ℚ)
  | .sym n => .sym n
  | .cpi => .cpi
  | .ce => .ce
  | .neg a => .neg (canonA a)
  | .add a b => .add (canonA a) (canonA b)
  | .sub a b => .sub (canonA a) (canonA b)
  | .mul a b => .mul (canonA a) (canonA b)
  | .div a b => .div (canonA a) (canonA b)
  | .pow a b => .pow (canonA a) (canonA b)
  | .app f a => .app f (canonA a)
  | .paren a => canonA a

/-- Exact rational value of a pure-arithmetic grammar tree (numerals,
`+ - * /`, unary minus, parentheses); `none` on any other constructor
or on division by zero. -/
def qevalA : AG → Option ℚ
  | .num n => some (n : ℚ)
  | .neg a => (qevalA a).map (fun x => -x)
  | .add a b => do pure ((← qevalA a) + (← qevalA b))
  | .sub a b => do pure ((← qevalA a) - (← qevalA b))
  | .mul a b => do pure ((← qevalA a) * (← qevalA b))
  | .div a b => do
    let x ← qevalA a
    let y ← qevalA b
    if y = 0 then none else pure (x / y)
  | .paren a => qevalA a
  | _ => none

/-! ## The differentiable fragment

`polyF x e` marks the trees built from numerals, the variable `x`,
`+ - *`, unary minus and the registry functions `sin`, `cos`, `exp` —
a fragment on which the symbolic derivative `diffS` can be checked
against the analytic derivative of the denotation. -/

/-- The single-variable binding `lambdify` gives the callable. -/
def bindOne (x : String) (t : ℝ) : String → Option ℝ :=
  fun m => if m = x then some t else none

/-- Numeric denotation of a tree in one real variable. -/
noncomputable def evalD (x : String) (e : SExpr) (t : ℝ) : ℝ :=
  (evalNumEnv (bindOne x t) e).getD 0

/-- The fragment of trees whose derivative soundness is proved. -/
def polyF (x : String) : SExpr → Bool
  | .num _ => true
  | .sym n => n == x
  | .neg a => polyF x a
  | .add a b | .sub a b | .mul a b => polyF x a && polyF x b
  | .app f a => (f == "sin" || f == "cos" || f == "exp") && polyF x a
  | _ => false

/-! ## Followers: what may come after a rendered tree without changing
how the parser reads the tree itself -/

/-- Follower condition at primary level: the next character must not
extend a numeral or identifier and must not start a call. -/
def folP (rest : List Char) : Prop :=
  ∀ c ∈ rest.head?, c.isAlpha = false ∧ c.isDigit = false ∧ c ≠ '('

/-- The continuation does not start with the power operator. -/
def noSS (rest : List Char) : Prop := ¬ ∃ r2, rest = '*' :: '*' :: r2

/-- Follower condition from power level upwards. -/
def folPw (rest : List Char) : Prop := folP rest ∧ noSS rest

/-- The continuation does not start with `*` or `/`. -/
def notMD (rest : List Char) : Prop :=
  ∀ c ∈ rest.head?, c ≠ '*' ∧ c ≠ '/'

/-- Correct primary parse of a rendered tree with any follower. -/
def LPst (a : AG) : Prop :=
  ∀ rest f, folP rest → 9 * (renderA a ++ rest).length + 1 ≤ f →
    parseP f (renderA a ++ rest) = some (canonA a, rest)

/-- Correct power-level parse of a rendered tree. -/
def LPwst (a : AG) : Prop :=
  ∀ rest f, folPw rest → 9 * (renderA a ++ rest).length + 2 ≤ f →
    parsePw f (renderA a ++ rest) = some (canonA a, rest)

/-- Correct unary-level parse of a rendered tree. -/
def LUst (a : AG) : Prop :=
  ∀ rest f, folPw rest → 9 * (renderA a ++ rest).length + 3 ≤ f →
    parseU f (renderA a ++ rest) = some (canonA a, rest)

/-- Correct term-level parse: the rendered tree becomes the accumulator
and the term loop continues on the follower. -/
def LTst (a : AG) : Prop :=
  ∀ rest f, folPw rest → 9 * (renderA a ++ rest).length + 5 ≤ f →
    parseT f (renderA a ++ rest) = parseT1 f (canonA a) rest

/-- Correct expression-level parse: the rendered tree becomes the
accumulator and the expression loop continues on the follower. -/
def LEst (a : AG) : Prop :=
  ∀ rest f, folPw rest → notMD rest → 9 * (renderA a ++ rest).length + 7 ≤ f →
    parseE f (renderA a ++ rest) = parseE1 f (canonA a) rest

/-! ## Parser support lemmas -/

theorem numGo_len (cs : List Char) : ∀ acc, ((numGo acc cs).2).length ≤ cs.length := by
  induction cs with
  | nil => intro acc; simp [numGo]
  | cons c cs ih =>
    intro acc
    simp only [numGo]
    split
    · have := ih (acc * 10 + digVal c)
      simp only [List.length_cons]
      omega
    · simp

theorem alphaGo_len (cs : List Char) : ((alphaGo cs).2).length ≤ cs.length := by
  induction cs with
  | nil => simp [alphaGo]
  | cons c cs ih =>
    simp only [alphaGo]
    split
    · simp only [List.length_cons]
      omega
    · simp

theorem parseU_notMinus (f : ℕ) (c : Char) (r0 : List Char) (hc : c ≠ '-') :
    parseU (f + 1) (c :: r0) = parsePw f (c :: r0) := by
  simp only [parseU]
  split
  · rename_i heq
    simp at heq
    exact absurd heq.1 hc
  · rfl

theorem parseT1_stop (f : ℕ) (acc : SExpr) (cs : List Char) (h : notMD cs) :
    parseT1 (f + 1) acc cs = some (acc, cs) := by
  rcases cs with _ | ⟨c, r0⟩
  · simp [parseT1]
  · have h2 := h c (by simp)
    simp only [parseT1]
    split
    · rename_i heq
      simp at heq
      exact absurd heq.1 h2.1
    · rename_i heq
      simp at heq
      exact absurd heq.1 h2.2
    · rfl

theorem parseE1_stop (f : ℕ) (acc : SExpr) (cs : List Char)
    (h : ∀ c r0, cs = c :: r0 → c ≠ '+' ∧ c ≠ '-') :
    parseE1 (f + 1) acc cs = some (acc, cs) := by
  rcases cs with _ | ⟨c, r0⟩
  · simp [parseE1]
  · simp only [parseE1]
    split
    · rename_i heq
      simp at heq
      exact absurd heq.1 (h c r0 rfl).1
    · rename_i heq
      simp at heq
      exact absurd heq.1 (h c r0 rfl).2
    · rfl

theorem parse_len : ∀ f : ℕ,
    (∀ cs e r, parseP f cs = some (e, r) → r.length ≤ cs.length) ∧
    (∀ cs e r, parsePw f cs = some (e, r) → r.length ≤ cs.length) ∧
    (∀ cs e r, parseU f cs = some (e, r) → r.length ≤ cs.length) ∧
    (∀ acc cs e r, parseT1 f acc cs = some (e, r) → r.length ≤ cs.length) ∧
    (∀ cs e r, parseT f cs = some (e, r) → r.length ≤ cs.length) ∧
    (∀ acc cs e r, parseE1 f acc cs = some (e, r) → r.length ≤ cs.length) ∧
    (∀ cs e r, parseE f cs = some (e, r) → r.length ≤ cs.length) := by
  intro f
  induction f with
  | zero =>
    refine ⟨?_, ?_, ?_, ?_, ?_, ?_, ?_⟩ <;> intros <;>
      simp_all [parseP, parsePw, parseU, parseT1, parseT, parseE1, parseE]
  | succ f ih =>
    obtain ⟨ihP, ihPw, ihU, ihT1, ihT, ihE1, ihE⟩ := ih
    refine ⟨?_, ?_, ?_, ?_, ?_, ?_, ?_⟩
    · -- parseP
      rintro (_ | ⟨c, cs⟩) e r h
      · simp [parseP] at h
      · simp only [parseP] at h
        split at h
        · simp only [Option.some.injEq, Prod.mk.injEq] at h
          obtain ⟨-, rfl⟩ := h
          have := numGo_len cs (digVal c)
          simp only [List.length_cons]
          omega
        · split at h
          · split at h
            · split at h
              · rename_i x1 r2 hag x2 e2 r3 hpe
                simp only [Option.some.injEq, Prod.mk.injEq] at h
                obtain ⟨-, rfl⟩ := h
                have h1 := alphaGo_len cs
                have h2 := ihE r2 e2 (')' :: r3) hpe
                rw [hag] at h1
                simp only [List.length_cons] at h1 h2 ⊢
                omega
              · simp at h
            · have h1 := alphaGo_len cs
              split at h <;> [skip; split at h] <;>
                simp only [Option.some.injEq, Prod.mk.injEq] at h <;>
                obtain ⟨-, rfl⟩ := h <;>
                simp only [List.length_cons] <;> omega
          · split at h
            · split at h
              · rename_i hpar x2 e2 r2 hpe
                simp only [Option.some.injEq, Prod.mk.injEq] at h
                obtain ⟨-, rfl⟩ := h
                have h2 := ihE cs e2 (')' :: r2) hpe
                simp only [List.length_cons] at h2 ⊢
                omega
              · simp at h
            · simp at h
    · -- parsePw
      rintro cs e r h
      rcases hp : parseP f cs with _ | ⟨a, r0⟩
      · simp [parsePw, hp] at h
      · simp only [parsePw, hp] at h
        have h1 := ihP cs a r0 hp
        split at h
        · rename_i r2
          rcases hu : parseU f r2 with _ | ⟨b, r3⟩
          · simp [hu] at h
          · simp only [hu, Option.some.injEq, Prod.mk.injEq] at h
            obtain ⟨-, rfl⟩ := h
            have h2 := ihU r2 b r3 hu
            simp only [List.length_cons] at h1
            omega
        · simp only [Option.some.injEq, Prod.mk.injEq] at h
          obtain ⟨-, rfl⟩ := h
          exact h1
    · -- parseU
      rintro (_ | ⟨c, r0⟩) e r h
      · simp only [parseU] at h
        exact ihPw _ _ _ h
      · by_cases hc : c = '-'
        · subst hc
          simp only [parseU] at h
          rcases hu : parseU f r0 with _ | ⟨a, r2⟩
          · simp [hu] at h
          · simp only [hu, Option.some.injEq, Prod.mk.injEq] at h
            obtain ⟨-, rfl⟩ := h
            have h2 := ihU r0 a r2 hu
            simp only [List.length_cons]
            omega
        · rw [parseU_notMinus f c r0 hc] at h
          exact ihPw _ _ _ h
    · -- parseT1
      rintro acc (_ | ⟨c, r0⟩) e r h
      · simp only [parseT1, Option.some.injEq, Prod.mk.injEq] at h
        obtain ⟨-, rfl⟩ := h
        exact le_refl _
      · by_cases hc : c = '*'
        · subst hc
          simp only [parseT1] at h
          rcases hu : parseU f r0 with _ | ⟨b, r2⟩
          · simp [hu] at h
          · simp only [hu] at h
            have h2 := ihU r0 b r2 hu
            have h3 := ihT1 _ r2 e r h
            simp only [List.length_cons]
            omega
        · by_cases hc2 : c = '/'
          · subst hc2
            simp only [parseT1] at h
            rcases hu : parseU f r0 with _ | ⟨b, r2⟩
            · simp [hu] at h
            · simp only [hu] at h
              have h2 := ihU r0 b r2 hu
              have h3 := ihT1 _ r2 e r h
              simp only [List.length_cons]
              omega
          · have hmd : notMD (c :: r0) := by
              intro x hx
              simp at hx
              subst hx
              exact ⟨hc, hc2⟩
            rw [parseT1_stop f acc (c :: r0) hmd] at h
            simp only [Option.some.injEq, Prod.mk.injEq] at h
            obtain ⟨-, rfl⟩ := h
            exact le_refl _
    · -- parseT
      rintro cs e r h
      simp only [parseT] at h
      rcases hu : parseU f cs with _ | ⟨a, r0⟩
      · simp [hu] at h
      · simp only [hu] at h
        have h1 := ihU cs a r0 hu
        have h2 := ihT1 a r0 e r h
        omega
    · -- parseE1
      rintro acc (_ | ⟨c, r0⟩) e r h
      · simp only [parseE1, Option.some.injEq, Prod.mk.injEq] at h
        obtain ⟨-, rfl⟩ := h
        exact le_refl _
      · by_cases hc : c = '+'
        · subst hc
          simp only [parseE1] at h
          rcases ht : parseT f r0 with _ | ⟨b, r2⟩
          · simp [ht] at h
          · simp only [ht] at h
            have h2 := ihT r0 b r2 ht
            have h3 := ihE1 _ r2 e r h
            simp only [List.length_cons]
            omega
        · by_cases hc2 : c = '-'
          · subst hc2
            simp only [parseE1] at h
            rcases ht : parseT f r0 with _ | ⟨b, r2⟩
            · simp [ht] at h
            · simp only [ht] at h
              have h2 := ihT r0 b r2 ht
              have h3 := ihE1 _ r2 e r h
              simp only [List.length_cons]
              omega
          · rw [parseE1_stop f acc (c :: r0)
              (by rintro c2 r2 heq; injection heq with heq1 heq2; subst heq1; exact ⟨hc, hc2⟩)] at h
            simp only [Option.some.injEq, Prod.mk.injEq] at h
            obtain ⟨-, rfl⟩ := h
            exact le_refl _
    · -- parseE
      rintro cs e r h
      simp only [parseE] at h
      rcases ht : parseT f cs with _ | ⟨a, r0⟩
      · simp [ht] at h
      · simp only [ht] at h
        have h1 := ihT cs a r0 ht
        have h2 := ihE1 a r0 e r h
        omega

theorem parsePw_noPow (f : ℕ) (cs : List Char) (a : SExpr) (r0 : List Char)
    (hp : parseP f cs = some (a, r0)) (hno : noSS r0) :
    parsePw (f + 1) cs = some (a, r0) := by
  simp only [parsePw, hp]
  split
  · rename_i r2
    exact absurd ⟨r2, rfl⟩ hno
  · rfl

/-- Fuel irrelevance: above the threshold `9 * length + tag` the parser
result does not depend on the fuel, so any two sufficient fuels agree. -/
theorem parse_fuel : ∀ f : ℕ,
    (∀ cs, 9 * cs.length + 1 ≤ f → parseP f cs = parseP (9 * cs.length + 1) cs) ∧
    (∀ cs, 9 * cs.length + 2 ≤ f → parsePw f cs = parsePw (9 * cs.length + 2) cs) ∧
    (∀ cs, 9 * cs.length + 3 ≤ f → parseU f cs = parseU (9 * cs.length + 3) cs) ∧
    (∀ acc cs, 9 * cs.length + 4 ≤ f → parseT1 f acc cs = parseT1 (9 * cs.length + 4) acc cs) ∧
    (∀ cs, 9 * cs.length + 5 ≤ f → parseT f cs = parseT (9 * cs.length + 5) cs) ∧
    (∀ acc cs, 9 * cs.length + 6 ≤ f → parseE1 f acc cs = parseE1 (9 * cs.length + 6) acc cs) ∧
    (∀ cs, 9 * cs.length + 7 ≤ f → parseE f cs = parseE (9 * cs.length + 7) cs) := by
  intro f
  induction f using Nat.strong_induction_on with
  | _ f ih =>
  have eqP : ∀ f1 f2 cs, f1 < f → f2 < f → 9 * cs.length + 1 ≤ f1 →
      9 * cs.length + 1 ≤ f2 → parseP f1 cs = parseP f2 cs :=
    fun f1 f2 cs h1 h2 h3 h4 =>
      ((ih f1 h1).1 cs h3).trans (((ih f2 h2).1 cs h4).symm)
  have eqU : ∀ f1 f2 cs, f1 < f → f2 < f → 9 * cs.length + 3 ≤ f1 →
      9 * cs.length + 3 ≤ f2 → parseU f1 cs = parseU f2 cs :=
    fun f1 f2 cs h1 h2 h3 h4 =>
      ((ih f1 h1).2.2.1 cs h3).trans (((ih f2 h2).2.2.1 cs h4).symm)
  have eqPw : ∀ f1 f2 cs, f1 < f → f2 < f → 9 * cs.length + 2 ≤ f1 →
      9 * cs.length + 2 ≤ f2 → parsePw f1 cs = parsePw f2 cs :=
    fun f1 f2 cs h1 h2 h3 h4 =>
      ((ih f1 h1).2.1 cs h3).trans (((ih f2 h2).2.1 cs h4).symm)
  have eqT1 : ∀ f1 f2 acc cs, f1 < f → f2 < f → 9 * cs.length + 4 ≤ f1 →
      9 * cs.length + 4 ≤ f2 → parseT1 f1 acc cs = parseT1 f2 acc cs :=
    fun f1 f2 acc cs h1 h2 h3 h4 =>
      ((ih f1 h1).2.2.2.1 acc cs h3).trans (((ih f2 h2).2.2.2.1 acc cs h4).symm)
  have eqT : ∀ f1 f2 cs, f1 < f → f2 < f → 9 * cs.length + 5 ≤ f1 →
      9 * cs.length + 5 ≤ f2 → parseT f1 cs = parseT f2 cs :=
    fun f1 f2 cs h1 h2 h3 h4 =>
      ((ih f1 h1).2.2.2.2.1 cs h3).trans (((ih f2 h2).2.2.2.2.1 cs h4).symm)
  have eqE1 : ∀ f1 f2 acc cs, f1 < f → f2 < f → 9 * cs.length + 6 ≤ f1 →
      9 * cs.length + 6 ≤ f2 → parseE1 f1 acc cs = parseE1 f2 acc cs :=
    fun f1 f2 acc cs h1 h2 h3 h4 =>
      ((ih f1 h1).2.2.2.2.2.1 acc cs h3).trans (((ih f2 h2).2.2.2.2.2.1 acc cs h4).symm)
  have eqE : ∀ f1 f2 cs, f1 < f → f2 < f → 9 * cs.length + 7 ≤ f1 →
      9 * cs.length + 7 ≤ f2 → parseE f1 cs = parseE f2 cs :=
    fun f1 f2 cs h1 h2 h3 h4 =>
      ((ih f1 h1).2.2.2.2.2.2 cs h3).trans (((ih f2 h2).2.2.2.2.2.2 cs h4).symm)
  refine ⟨?_, ?_, ?_, ?_, ?_, ?_, ?_⟩
  · -- parseP
    rintro (_ | ⟨c, cs⟩) hle
    · obtain ⟨f', rfl⟩ : ∃ f', f = f' + 1 := ⟨f - 1, by omega⟩
      rfl
    · simp only [List.length_cons] at hle ⊢
      obtain ⟨f', rfl⟩ : ∃ f', f = f' + 1 := ⟨f - 1, by omega⟩
      have hcan : 9 * (cs.length + 1) + 1 = (9 * cs.length + 9) + 1 := by ring
      rw [hcan]
      generalize hg : 9 * cs.length + 9 = g
      simp only [parseP]
      by_cases hd : c.isDigit
      · simp only [hd, if_pos]
      · simp only [hd, Bool.false_eq_true, if_neg, if_false]
        by_cases ha : c.isAlpha
        · simp only [ha, if_pos]
          rcases hag : (alphaGo cs).2 with _ | ⟨c2, r2⟩
          · rfl
          · have hlen : (c2 :: r2).length ≤ cs.length := by
              rw [← hag]; exact alphaGo_len cs
            simp only [List.length_cons] at hlen
            by_cases hc2 : c2 = '('
            · subst hc2
              split
              · rename_i x r2x heq
                injection heq with heq1 heq2
                subst heq2
                rw [eqE f' g r2 (by omega) (by omega) (by omega) (by omega)]
              · rfl
            · split
              · rename_i x r2x heq
                injection heq with heq1 heq2
                exact absurd heq1 hc2
              · rfl
        · simp only [ha, Bool.false_eq_true, if_neg, if_false]
          by_cases hp : c = '('
          · simp only [hp, if_pos]
            rw [eqE f' g cs (by omega) (by omega) (by omega) (by omega)]
          · simp only [hp, if_neg, if_false]
  · -- parsePw
    intro cs hle
    obtain ⟨f', rfl⟩ : ∃ f', f = f' + 1 := ⟨f - 1, by omega⟩
    have hcan : 9 * cs.length + 2 = (9 * cs.length + 1) + 1 := by ring
    rw [hcan]
    rcases hp : parseP (9 * cs.length + 1) cs with _ | ⟨a, r0⟩
    · have hpf : parseP f' cs = none :=
        (eqP f' (9 * cs.length + 1) cs (by omega) (by omega) (by omega) (by omega)).trans hp
      generalize hg : 9 * cs.length + 1 = g at hp
      simp only [parsePw, hp, hpf]
    · have hpf : parseP f' cs = some (a, r0) :=
        (eqP f' (9 * cs.length + 1) cs (by omega) (by omega) (by omega) (by omega)).trans hp
      have hlen : r0.length ≤ cs.length := (parse_len _).1 cs a r0 hp
      by_cases hss : ∃ r2, r0 = '*' :: '*' :: r2
      · obtain ⟨r2, rfl⟩ := hss
        simp only [List.length_cons] at hlen
        have hEq := eqU f' (9 * cs.length + 1) r2 (by omega) (by omega) (by omega) (by omega)
        generalize hg : 9 * cs.length + 1 = g at hp hEq
        simp only [parsePw, hp, hpf]
        rw [hEq]
      · have h1 := parsePw_noPow f' cs a r0 hpf hss
        have h2 := parsePw_noPow (9 * cs.length + 1) cs a r0 hp hss
        rw [h1, h2]
  · -- parseU
    rintro (_ | ⟨c, cs⟩) hle
    · simp only [List.length_nil, Nat.mul_zero, Nat.zero_add] at hle
      obtain ⟨f', rfl⟩ : ∃ f', f = f' + 1 := ⟨f - 1, by omega⟩
      have h0 : 9 * ([] : List Char).length + 3 = 2 + 1 := by simp
      rw [h0]
      simp only [parseU]
      exact eqPw f' 2 [] (by omega) (by omega) (by simp; omega) (by simp)
    · simp only [List.length_cons] at hle ⊢
      obtain ⟨f', rfl⟩ : ∃ f', f = f' + 1 := ⟨f - 1, by omega⟩
      have hcan : 9 * (cs.length + 1) + 3 = (9 * cs.length + 11) + 1 := by ring
      rw [hcan]
      by_cases hc : c = '-'
      · subst hc
        have hEq := eqU f' (9 * cs.length + 11) cs (by omega) (by omega) (by omega) (by omega)
        generalize hg : 9 * cs.length + 11 = g at hEq
        simp only [parseU]
        rw [hEq]
      · rw [parseU_notMinus f' c cs hc, parseU_notMinus (9 * cs.length + 11) c cs hc]
        refine eqPw f' (9 * cs.length + 11) (c :: cs) (by omega) (by omega) ?_ ?_ <;>
          simp only [List.length_cons] <;> omega
  · -- parseT1
    rintro acc (_ | ⟨c, cs⟩) hle
    · obtain ⟨f', rfl⟩ : ∃ f', f = f' + 1 := ⟨f - 1, by omega⟩
      rfl
    · simp only [List.length_cons] at hle ⊢
      obtain ⟨f', rfl⟩ : ∃ f', f = f' + 1 := ⟨f - 1, by omega⟩
      have hcan : 9 * (cs.length + 1) + 4 = (9 * cs.length + 12) + 1 := by ring
      rw [hcan]
      by_cases hc : c = '*'
      · subst hc
        have hu1 := eqU f' (9 * cs.length + 3) cs (by omega) (by omega) (by omega) (by omega)
        have hu2 := eqU (9 * cs.length + 12) (9 * cs.length + 3) cs
          (by omega) (by omega) (by omega) (by omega)
        rcases hu : parseU (9 * cs.length + 3) cs with _ | ⟨b, r2⟩
        · rw [hu] at hu1 hu2
          generalize hg : 9 * cs.length + 12 = g at hu2
          simp only [parseT1, hu1, hu2]
        · rw [hu] at hu1 hu2
          have hlen : r2.length ≤ cs.length := (parse_len _).2.2.1 cs b r2 hu
          have hT := eqT1 f' (9 * cs.length + 12) (SExpr.mul acc b) r2
            (by omega) (by omega) (by omega) (by omega)
          generalize hg : 9 * cs.length + 12 = g at hu2 hT
          simp only [parseT1, hu1, hu2]
          exact hT
      · by_cases hc2 : c = '/'
        · subst hc2
          have hu1 := eqU f' (9 * cs.length + 3) cs (by omega) (by omega) (by omega) (by omega)
          have hu2 := eqU (9 * cs.length + 12) (9 * cs.length + 3) cs
            (by omega) (by omega) (by omega) (by omega)
          rcases hu : parseU (9 * cs.length + 3) cs with _ | ⟨b, r2⟩
          · rw [hu] at hu1 hu2
            generalize hg : 9 * cs.length + 12 = g at hu2
            simp only [parseT1, hu1, hu2]
          · rw [hu] at hu1 hu2
            have hlen : r2.length ≤ cs.length := (parse_len _).2.2.1 cs b r2 hu
            have hT := eqT1 f' (9 * cs.length + 12) (SExpr.div acc b) r2
              (by omega) (by omega) (by omega) (by omega)
            generalize hg : 9 * cs.length + 12 = g at hu2 hT
            simp only [parseT1, hu1, hu2]
            exact hT
        · have hmd : notMD (c :: cs) := by
            intro x hx
            simp at hx
            subst hx
            exact ⟨hc, hc2⟩
          rw [parseT1_stop f' acc (c :: cs) hmd,
            parseT1_stop (9 * cs.length + 12) acc (c :: cs) hmd]
  · -- parseT
    intro cs hle
    obtain ⟨f', rfl⟩ : ∃ f', f = f' + 1 := ⟨f - 1, by omega⟩
    have hcan : 9 * cs.length + 5 = (9 * cs.length + 4) + 1 := by ring
    rw [hcan]
    have hu1 := eqU f' (9 * cs.length + 3) cs (by omega) (by omega) (by omega) (by omega)
    have hu2 := eqU (9 * cs.length + 4) (9 * cs.length + 3) cs
      (by omega) (by omega) (by omega) (by omega)
    rcases hu : parseU (9 * cs.length + 3) cs with _ | ⟨a, r0⟩
    · rw [hu] at hu1 hu2
      generalize hg : 9 * cs.length + 4 = g at hu2
      simp only [parseT, hu1, hu2]
    · rw [hu] at hu1 hu2
      have hlen : r0.length ≤ cs.length := (parse_len _).2.2.1 cs a r0 hu
      have hT := eqT1 f' (9 * cs.length + 4) a r0 (by omega) (by omega) (by omega) (by omega)
      generalize hg : 9 * cs.length + 4 = g at hu2 hT
      simp only [parseT, hu1, hu2]
      exact hT
  · -- parseE1
    rintro acc (_ | ⟨c, cs⟩) hle
    · obtain ⟨f', rfl⟩ : ∃ f', f = f' + 1 := ⟨f - 1, by omega⟩
      rfl
    · simp only [List.length_cons] at hle ⊢
      obtain ⟨f', rfl⟩ : ∃ f', f = f' + 1 := ⟨f - 1, by omega⟩
      have hcan : 9 * (cs.length + 1) + 6 = (9 * cs.length + 14) + 1 := by ring
      rw [hcan]
      by_cases hc : c = '+'
      · subst hc
        have ht1 := eqT f' (9 * cs.length + 5) cs (by omega) (by omega) (by omega) (by omega)
        have ht2 := eqT (9 * cs.length + 14) (9 * cs.length + 5) cs
          (by omega) (by omega) (by omega) (by omega)
        rcases ht : parseT (9 * cs.length + 5) cs with _ | ⟨b, r2⟩
        · rw [ht] at ht1 ht2
          generalize hg : 9 * cs.length + 14 = g at ht2
          simp only [parseE1, ht1, ht2]
        · rw [ht] at ht1 ht2
          have hlen : r2.length ≤ cs.length := (parse_len _).2.2.2.2.1 cs b r2 ht
          have hE := eqE1 f' (9 * cs.length + 14) (SExpr.add acc b) r2
            (by omega) (by omega) (by omega) (by omega)
          generalize hg : 9 * cs.length + 14 = g at ht2 hE
          simp only [parseE1, ht1, ht2]
          exact hE
      · by_cases hc2 : c = '-'
        · subst hc2
          have ht1 := eqT f' (9 * cs.length + 5) cs (by omega) (by omega) (by omega) (by omega)
          have ht2 := eqT (9 * cs.length + 14) (9 * cs.length + 5) cs
            (by omega) (by omega) (by omega) (by omega)
          rcases ht : parseT (9 * cs.length + 5) cs with _ | ⟨b, r2⟩
          · rw [ht] at ht1 ht2
            generalize hg : 9 * cs.length + 14 = g at ht2
            simp only [parseE1, ht1, ht2]
          · rw [ht] at ht1 ht2
            have hlen : r2.length ≤ cs.length := (parse_len _).2.2.2.2.1 cs b r2 ht
            have hE := eqE1 f' (9 * cs.length + 14) (SExpr.sub acc b) r2
              (by omega) (by omega) (by omega) (by omega)
            generalize hg : 9 * cs.length + 14 = g at ht2 hE
            simp only [parseE1, ht1, ht2]
            exact hE
        · have hpm : ∀ c2 r0, (c :: cs) = c2 :: r0 → c2 ≠ '+' ∧ c2 ≠ '-' := by
            rintro c2 r0 heq
            injection heq with heq1 heq2
            subst heq1
            exact ⟨hc, hc2⟩
          rw [parseE1_stop f' acc (c :: cs) hpm,
            parseE1_stop (9 * cs.length + 14) acc (c :: cs) hpm]
  · -- parseE
    intro cs hle
    obtain ⟨f', rfl⟩ : ∃ f', f = f' + 1 := ⟨f - 1, by omega⟩
    have hcan : 9 * cs.length + 7 = (9 * cs.length + 6) + 1 := by ring
    rw [hcan]
    have ht1 := eqT f' (9 * cs.length + 5) cs (by omega) (by omega) (by omega) (by omega)
    have ht2 := eqT (9 * cs.length + 6) (9 * cs.length + 5) cs
      (by omega) (by omega) (by omega) (by omega)
    rcases ht : parseT (9 * cs.length + 5) cs with _ | ⟨a, r0⟩
    · rw [ht] at ht1 ht2
      generalize hg : 9 * cs.length + 6 = g at ht2
      simp only [parseE, ht1, ht2]
    · rw [ht] at ht1 ht2
      have hlen : r0.length ≤ cs.length := (parse_len _).2.2.2.2.1 cs a r0 ht
      have hE := eqE1 f' (9 * cs.length + 6) a r0 (by omega) (by omega) (by omega) (by omega)
      generalize hg : 9 * cs.length + 6 = g at ht2 hE
      simp only [parseE, ht1, ht2]
      exact hE

/-! ## Character and token facts -/

theorem isAlpha_isDigit_false (c : Char) (h : c.isAlpha = true) : c.isDigit = false := by
  simp only [Char.isAlpha, Char.isLower, Char.isUpper, Char.isDigit,
    Bool.or_eq_true, Bool.and_eq_true, decide_eq_true_eq] at h
  rcases h with ⟨h1, h2⟩ | ⟨h1, h2⟩ <;>
    · have hnd : ¬ (c.val ≤ 57) := fun h3 => absurd (UInt32.le_trans h1 h3) (by decide)
      simp [Char.isDigit, decide_eq_false hnd]

theorem digitChar_isDigit (n : ℕ) (h : n < 10) : (Nat.digitChar n).isDigit = true := by
  interval_cases n <;> decide

theorem digVal_digitChar (n : ℕ) (h : n < 10) : digVal (Nat.digitChar n) = n := by
  interval_cases n <;> decide

theorem numGo_stop (acc : ℕ) (rest : List Char)
    (h : ∀ c ∈ rest.head?, c.isDigit = false) : numGo acc rest = (acc, rest) := by
  rcases rest with _ | ⟨c, r⟩
  · simp [numGo]
  · have := h c (by simp)
    simp [numGo, this]

theorem numGo_natRenderF : ∀ f n acc rest, n < f →
    numGo acc (natRenderF f n ++ rest) =
      numGo (acc * 10 ^ (natRenderF f n).length + n) rest := by
  intro f
  induction f with
  | zero => intro n acc rest h; omega
  | succ f ih =>
    intro n acc rest h
    by_cases h10 : n < 10
    · simp only [natRenderF, h10, if_pos, List.cons_append, List.nil_append]
      simp [numGo, digitChar_isDigit n h10, digVal_digitChar n h10]
    · simp only [natRenderF, h10, if_neg, if_false]
      rw [List.append_assoc, ih (n / 10) acc _ (by omega)]
      simp only [List.cons_append, List.nil_append]
      have hd : (Nat.digitChar (n % 10)).isDigit = true := digitChar_isDigit _ (by omega)
      have hv : digVal (Nat.digitChar (n % 10)) = n % 10 := digVal_digitChar _ (by omega)
      simp only [numGo, hd, if_pos, hv]
      congr 1
      simp only [List.length_append, List.length_cons, List.length_nil]
      generalize (natRenderF f (n / 10)).length = L
      have : 10 ^ (L + 1) = 10 ^ L * 10 := by ring
      rw [this]
      generalize 10 ^ L = k
      have hdm : 10 * (n / 10) + n % 10 = n := Nat.div_add_mod n 10
      ring_nf
      omega

theorem natRenderF_head : ∀ f n, n < f →
    ∃ c t, natRenderF f n = c :: t ∧ c.isDigit = true := by
  intro f
  induction f with
  | zero => intro n h; omega
  | succ f ih =>
    intro n h
    by_cases h10 : n < 10
    · exact ⟨Nat.digitChar n, [], by simp [natRenderF, h10], digitChar_isDigit n h10⟩
    · obtain ⟨c, t, hct, hd⟩ := ih (n / 10) (by omega)
      refine ⟨c, t ++ [Nat.digitChar (n % 10)], ?_, hd⟩
      simp [natRenderF, h10, hct]

theorem natRender_head (n : ℕ) :
    ∃ c t, natRender n = c :: t ∧ c.isDigit = true :=
  natRenderF_head (n + 1) n (by omega)

theorem isDigit_ne (c : Char) (h : c.isDigit = true) :
    c ≠ '(' ∧ c ≠ ')' ∧ c ≠ '-' ∧ c ≠ '+' ∧ c ≠ '*' ∧ c ≠ '/' := by
  refine ⟨?_, ?_, ?_, ?_, ?_, ?_⟩ <;> · rintro rfl; simp at h

theorem isAlpha_ne (c : Char) (h : c.isAlpha = true) :
    c ≠ '(' ∧ c ≠ ')' ∧ c ≠ '-' ∧ c ≠ '+' ∧ c ≠ '*' ∧ c ≠ '/' := by
  refine ⟨?_, ?_, ?_, ?_, ?_, ?_⟩ <;> · rintro rfl; simp at h

theorem alphaGo_spec : ∀ t rest, (∀ c ∈ t, c.isAlpha = true) →
    (∀ c ∈ rest.head?, c.isAlpha = false) → alphaGo (t ++ rest) = (t, rest) := by
  intro t
  induction t with
  | nil =>
    intro rest ht hr
    rcases rest with _ | ⟨c, r⟩
    · simp [alphaGo]
    · have := hr c (by simp)
      simp [alphaGo, this]
  | cons c t ih =>
    intro rest ht hr
    have hc : c.isAlpha = true := ht c (by simp)
    simp only [List.cons_append, alphaGo, hc, if_pos, List.append_eq]
    rw [ih rest (fun x hx => ht x (by simp [hx])) hr]

/-- Numeral parse-back: the rendering of `n` followed by anything whose
head is not a digit reads back as exactly `n`. -/
theorem numGo_natRender (n : ℕ) (rest : List Char)
    (hr : ∀ c ∈ rest.head?, c.isDigit = false) :
    numGo 0 (natRender n ++ rest) = (n, rest) := by
  simp only [natRender]
  rw [numGo_natRenderF (n + 1) n 0 rest (by omega)]
  simp [numGo_stop _ _ hr]

/-! ## Heads of rendered trees and level-lifting lemmas -/

theorem isIdentStr_head (s : String) (h : isIdentStr s = true) :
    ∃ c t, s.data = c :: t ∧ c.isAlpha = true ∧ ∀ x ∈ t, x.isAlpha = true := by
  rcases hs : s.data with _ | ⟨c, t⟩
  · rw [isIdentStr, hs] at h
    simp at h
  · rw [isIdentStr, hs] at h
    simp only [List.isEmpty_cons, Bool.not_false, Bool.true_and, List.all_eq_true] at h
    exact ⟨c, t, rfl, h c (by simp), fun x hx => h x (by simp [hx])⟩

theorem primHead (a : AG) (hw : wfA a = true) (hr : 4 ≤ rankA a) :
    ∃ c t, renderA a = c :: t ∧ (c.isDigit = true ∨ c.isAlpha = true ∨ c = '(') := by
  cases a with
  | num n =>
    obtain ⟨c, t, hct, hd⟩ := natRender_head n
    exact ⟨c, t, hct, Or.inl hd⟩
  | sym n =>
    simp only [wfA, Bool.and_eq_true] at hw
    obtain ⟨c, t, hct, ha, -⟩ := isIdentStr_head n hw.1.1
    exact ⟨c, t, by simp [renderA, hct], Or.inr (Or.inl ha)⟩
  | cpi => exact ⟨'p', ['i'], rfl, Or.inr (Or.inl (by decide))⟩
  | ce => exact ⟨'e', [], rfl, Or.inr (Or.inl (by decide))⟩
  | app fn a =>
    simp only [wfA, Bool.and_eq_true] at hw
    obtain ⟨c, t, hct, ha, -⟩ := isIdentStr_head fn hw.1
    exact ⟨c, t ++ '(' :: (renderA a ++ [')']), by simp [renderA, hct], Or.inr (Or.inl ha)⟩
  | paren a => exact ⟨'(', renderA a ++ [')'], rfl, Or.inr (Or.inr rfl)⟩
  | add a b => simp [rankA] at hr
  | sub a b => simp [rankA] at hr
  | mul a b => simp [rankA] at hr
  | div a b => simp [rankA] at hr
  | neg a => simp [rankA] at hr
  | pow a b => simp [rankA] at hr

theorem renderU_head (a : AG) (hw : wfA a = true) (hr : 2 ≤ rankA a) :
    ∃ c t, renderA a = c :: t ∧
      (c.isDigit = true ∨ c.isAlpha = true ∨ c = '(' ∨ c = '-') := by
  cases a with
  | neg a => exact ⟨'-', renderA a, rfl, Or.inr (Or.inr (Or.inr rfl))⟩
  | pow a b =>
    simp only [wfA, Bool.and_eq_true, decide_eq_true_eq] at hw
    obtain ⟨c, t, hct, h3⟩ := primHead a hw.1.1.1 hw.1.2
    refine ⟨c, t ++ '*' :: '*' :: renderA b, by simp [renderA, hct], ?_⟩
    rcases h3 with h3 | h3 | h3
    · exact Or.inl h3
    · exact Or.inr (Or.inl h3)
    · exact Or.inr (Or.inr (Or.inl h3))
  | add a b => simp [rankA] at hr
  | sub a b => simp [rankA] at hr
  | mul a b => simp [rankA] at hr
  | div a b => simp [rankA] at hr
  | num n =>
    obtain ⟨c, t, hct, h3⟩ := primHead (.num n) hw (by simp [rankA])
    exact ⟨c, t, hct, by tauto⟩
  | sym n =>
    obtain ⟨c, t, hct, h3⟩ := primHead (.sym n) hw (by simp [rankA])
    exact ⟨c, t, hct, by tauto⟩
  | cpi =>
    obtain ⟨c, t, hct, h3⟩ := primHead .cpi hw (by simp [rankA])
    exact ⟨c, t, hct, by tauto⟩
  | ce =>
    obtain ⟨c, t, hct, h3⟩ := primHead .ce hw (by simp [rankA])
    exact ⟨c, t, hct, by tauto⟩
  | app fn a =>
    obtain ⟨c, t, hct, h3⟩ := primHead (.app fn a) hw (by simp [rankA])
    exact ⟨c, t, hct, by tauto⟩
  | paren a =>
    obtain ⟨c, t, hct, h3⟩ := primHead (.paren a) hw (by simp [rankA])
    exact ⟨c, t, hct, by tauto⟩

theorem headU_ne_star (a : AG) (hw : wfA a = true) (hr : 2 ≤ rankA a) :
    ∀ c ∈ (renderA a).head?, c ≠ '*' ∧ c ≠ '/' ∧ c ≠ '+' := by
  obtain ⟨c, t, hct, h3⟩ := renderU_head a hw hr
  intro x hx
  rw [hct] at hx
  simp only [List.head?_cons, Option.mem_def, Option.some.injEq] at hx
  subst hx
  rcases h3 with h3 | h3 | h3 | h3
  · have := isDigit_ne c h3
    exact ⟨this.2.2.2.2.1, this.2.2.2.2.2, this.2.2.2.1⟩
  · have := isAlpha_ne c h3
    exact ⟨this.2.2.2.2.1, this.2.2.2.2.2, this.2.2.2.1⟩
  · subst h3; refine ⟨by decide, by decide, by decide⟩
  · subst h3; refine ⟨by decide, by decide, by decide⟩

theorem lift_Pw (a : AG) (h : LPst a) : LPwst a := by
  intro rest f hfol hle
  obtain ⟨f', rfl⟩ : ∃ f', f = f' + 1 := ⟨f - 1, by omega⟩
  exact parsePw_noPow f' _ (canonA a) rest (h rest f' hfol.1 (by omega)) hfol.2

theorem lift_U (a : AG) (h : LPwst a)
    (hhead : ∃ c t, renderA a = c :: t ∧ c ≠ '-') : LUst a := by
  intro rest f hfol hle
  obtain ⟨f', rfl⟩ : ∃ f', f = f' + 1 := ⟨f - 1, by omega⟩
  obtain ⟨c, t, hct, hc⟩ := hhead
  have hPw := h rest f' hfol (by omega)
  rw [hct] at hPw ⊢
  simp only [List.cons_append] at hPw ⊢
  rw [parseU_notMinus f' c (t ++ rest) hc]
  exact hPw

theorem lift_T (a : AG) (h : LUst a) : LTst a := by
  intro rest f hfol hle
  rw [List.length_append] at hle
  obtain ⟨f', rfl⟩ : ∃ f', f = f' + 1 := ⟨f - 1, by omega⟩
  have hU := h rest f' hfol (by rw [List.length_append]; omega)
  simp only [parseT, hU]
  have l1 := (parse_fuel f').2.2.2.1 (canonA a) rest (by omega)
  have l2 := (parse_fuel (f' + 1)).2.2.2.1 (canonA a) rest (by omega)
  rw [l1, l2]

theorem lift_E (a : AG) (h : LTst a) : LEst a := by
  intro rest f hfol hmd hle
  rw [List.length_append] at hle
  obtain ⟨f', rfl⟩ : ∃ f', f = f' + 1 := ⟨f - 1, by omega⟩
  have hT := h rest f' hfol (by rw [List.length_append]; omega)
  simp only [parseE, hT]
  obtain ⟨f'', rfl⟩ : ∃ f'', f' = f'' + 1 := ⟨f' - 1, by omega⟩
  rw [parseT1_stop f'' (canonA a) rest hmd]
  show parseE1 (f'' + 1) (canonA a) rest = parseE1 (f'' + 1 + 1) (canonA a) rest
  have l1 := (parse_fuel (f'' + 1)).2.2.2.2.2.1 (canonA a) rest (by omega)
  have l2 := (parse_fuel (f'' + 1 + 1)).2.2.2.2.2.1 (canonA a) rest (by omega)
  rw [l1, l2]

/-! ## Follower helpers -/

theorem folP_lit (c : Char) (r : List Char) (h1 : c.isAlpha = false)
    (h2 : c.isDigit = false) (h3 : c ≠ '(') : folP (c :: r) := by
  intro x hx
  simp at hx
  subst hx
  exact ⟨h1, h2, h3⟩

theorem noSS_lit (c : Char) (r : List Char) (h : c ≠ '*') : noSS (c :: r) := by
  rintro ⟨r2, heq⟩
  injection heq with h1 _
  exact h h1

theorem notMD_lit (c : Char) (r : List Char) (h1 : c ≠ '*') (h2 : c ≠ '/') :
    notMD (c :: r) := by
  intro x hx
  simp at hx
  subst hx
  exact ⟨h1, h2⟩

theorem folP_nil : folP [] := by intro c hc; simp at hc

theorem noSS_nil : noSS [] := by rintro ⟨r2, h⟩; simp at h

theorem notMD_nil : notMD [] := by intro c hc; simp at hc

/-! ## Assembling the five statements from the native one per level -/

theorem assemble4 (a : AG) (hw : wfA a = true) (hr : 4 ≤ rankA a) (hP : LPst a) :
    (4 ≤ rankA a → LPst a) ∧ (3 ≤ rankA a → LPwst a) ∧ (2 ≤ rankA a → LUst a) ∧
    (1 ≤ rankA a → LTst a) ∧ LEst a := by
  have hhead : ∃ c t, renderA a = c :: t ∧ c ≠ '-' := by
    obtain ⟨c, t, hct, h3⟩ := primHead a hw hr
    refine ⟨c, t, hct, ?_⟩
    rcases h3 with h | h | h
    · exact (isDigit_ne c h).2.2.1
    · exact (isAlpha_ne c h).2.2.1
    · subst h; decide
  have hPw := lift_Pw a hP
  have hU := lift_U a hPw hhead
  have hT := lift_T a hU
  exact ⟨fun _ => hP, fun _ => hPw, fun _ => hU, fun _ => hT, lift_E a hT⟩

theorem assemble3 (a : AG) (hr : rankA a = 3)
    (hhead : ∃ c t, renderA a = c :: t ∧ c ≠ '-') (hPw : LPwst a) :
    (4 ≤ rankA a → LPst a) ∧ (3 ≤ rankA a → LPwst a) ∧ (2 ≤ rankA a → LUst a) ∧
    (1 ≤ rankA a → LTst a) ∧ LEst a := by
  have hU := lift_U a hPw hhead
  have hT := lift_T a hU
  exact ⟨fun h => absurd h (by omega), fun _ => hPw, fun _ => hU, fun _ => hT, lift_E a hT⟩

theorem assemble2 (a : AG) (hr : rankA a = 2) (hU : LUst a) :
    (4 ≤ rankA a → LPst a) ∧ (3 ≤ rankA a → LPwst a) ∧ (2 ≤ rankA a → LUst a) ∧
    (1 ≤ rankA a → LTst a) ∧ LEst a := by
  have hT := lift_T a hU
  exact ⟨fun h => absurd h (by omega), fun h => absurd h (by omega), fun _ => hU,
    fun _ => hT, lift_E a hT⟩

theorem assemble1 (a : AG) (hr : rankA a = 1) (hT : LTst a) :
    (4 ≤ rankA a → LPst a) ∧ (3 ≤ rankA a → LPwst a) ∧ (2 ≤ rankA a → LUst a) ∧
    (1 ≤ rankA a → LTst a) ∧ LEst a :=
  ⟨fun h => absurd h (by omega), fun h => absurd h (by omega),
    fun h => absurd h (by omega), fun _ => hT, lift_E a hT⟩

theorem assemble0 (a : AG) (hr : rankA a = 0) (hE : LEst a) :
    (4 ≤ rankA a → LPst a) ∧ (3 ≤ rankA a → LPwst a) ∧ (2 ≤ rankA a → LUst a) ∧
    (1 ≤ rankA a → LTst a) ∧ LEst a :=
  ⟨fun h => absurd h (by omega), fun h => absurd h (by omega),
    fun h => absurd h (by omega), fun h => absurd h (by omega), hE⟩

/-- Main parser correctness: a well-formed grammar tree rendered to its
string and followed by an admissible continuation parses back to its
SymPy tree, at every level its rank admits. -/
theorem parse_render : ∀ a : AG, wfA a = true →
    (4 ≤ rankA a → LPst a) ∧ (3 ≤ rankA a → LPwst a) ∧ (2 ≤ rankA a → LUst a) ∧
    (1 ≤ rankA a → LTst a) ∧ LEst a := by
  intro a
  induction a with
  | num n =>
    intro hw
    refine assemble4 _ hw (by simp [rankA]) ?_
    intro rest f hfol hle
    obtain ⟨f', rfl⟩ : ∃ f', f = f' + 1 := ⟨f - 1, by omega⟩
    obtain ⟨c, t, hct, hcd⟩ := natRender_head n
    have hnum : numGo (digVal c) (t ++ rest) = (n, rest) := by
      have h0 := numGo_natRender n rest (fun x hx => (hfol x hx).2.1)
      rw [hct] at h0
      simp only [List.cons_append, numGo, hcd, if_pos] at h0
      simpa using h0
    have hshape : renderA (.num n) ++ rest = c :: (t ++ rest) := by
      simp [renderA, hct]
    rw [hshape]
    simp only [parseP, hcd, if_pos]
    rw [hnum]
    simp [canonA]
  | sym name =>
    intro hw
    have hw0 := hw
    simp only [wfA, Bool.and_eq_true, bne_iff_ne, ne_eq] at hw
    obtain ⟨⟨hid, hpi⟩, hee⟩ := hw
    refine assemble4 _ hw0 (by simp [rankA]) ?_
    intro rest f hfol hle
    obtain ⟨f', rfl⟩ : ∃ f', f = f' + 1 := ⟨f - 1, by omega⟩
    obtain ⟨c, t, hdata, hca, hta⟩ := isIdentStr_head name hid
    have hcd : c.isDigit = false := isAlpha_isDigit_false c hca
    have hag : alphaGo (t ++ rest) = (t, rest) :=
      alphaGo_spec t rest hta (fun x hx => (hfol x hx).1)
    have hmk : String.mk (c :: t) = name := by rw [← hdata]
    have hshape : renderA (.sym name) ++ rest = c :: (t ++ rest) := by
      simp [renderA, hdata]
    rw [hshape]
    simp only [parseP, hcd, Bool.false_eq_true, if_false, hca, if_pos, hag]
    split
    · exact absurd rfl (hfol '(' (by simp)).2.2
    · rw [hmk, if_neg hpi, if_neg hee]
      simp [canonA]
  | cpi =>
    intro hw
    refine assemble4 _ hw (by simp [rankA]) ?_
    intro rest f hfol hle
    obtain ⟨f', rfl⟩ : ∃ f', f = f' + 1 := ⟨f - 1, by omega⟩
    have hag : alphaGo (['i'] ++ rest) = (['i'], rest) :=
      alphaGo_spec ['i'] rest (by intro x hx; simp at hx; subst hx; decide)
        (fun x hx => (hfol x hx).1)
    simp only [List.singleton_append] at hag
    show parseP (f' + 1) ('p' :: ('i' :: rest)) = some (canonA .cpi, rest)
    simp only [parseP,
      show ('p' : Char).isDigit = false by decide, Bool.false_eq_true, if_false,
      show ('p' : Char).isAlpha = true by decide, if_pos, hag]
    split
    · exact absurd rfl (hfol '(' (by simp)).2.2
    · simp [canonA]
  | ce =>
    intro hw
    refine assemble4 _ hw (by simp [rankA]) ?_
    intro rest f hfol hle
    obtain ⟨f', rfl⟩ : ∃ f', f = f' + 1 := ⟨f - 1, by omega⟩
    have hag : alphaGo ([] ++ rest) = ([], rest) :=
      alphaGo_spec [] rest (by intro x hx; simp at hx) (fun x hx => (hfol x hx).1)
    simp only [List.nil_append] at hag
    show parseP (f' + 1) ('e' :: rest) = some (canonA .ce, rest)
    simp only [parseP,
      show ('e' : Char).isDigit = false by decide, Bool.false_eq_true, if_false,
      show ('e' : Char).isAlpha = true by decide, if_pos, hag]
    split
    · exact absurd rfl (hfol '(' (by simp)).2.2
    · simp [canonA]
  | paren a iha =>
    intro hw
    have hwa : wfA a = true := hw
    refine assemble4 _ hw (by simp [rankA]) ?_
    intro rest f hfol hle
    have hlen : ((renderA (.paren a)) ++ rest).length
        = (renderA a).length + rest.length + 2 := by
      simp only [renderA, List.length_append, List.length_cons, List.length_nil]
      omega
    rw [hlen] at hle
    obtain ⟨f', rfl⟩ : ∃ f', f = f' + 1 := ⟨f - 1, by omega⟩
    have hE := (iha hwa).2.2.2.2 (')' :: rest) f'
      ⟨folP_lit _ _ (by decide) (by decide) (by decide), noSS_lit _ _ (by decide)⟩
      (notMD_lit _ _ (by decide) (by decide))
      (by simp only [List.length_append, List.length_cons]; omega)
    have hE2 : parseE f' (renderA a ++ ')' :: rest) = some (canonA a, ')' :: rest) := by
      rw [hE]
      obtain ⟨f'', rfl⟩ : ∃ f'', f' = f'' + 1 := ⟨f' - 1, by omega⟩
      exact parseE1_stop f'' _ _
        (by rintro c2 r0 heq; injection heq with h1 _; subst h1; exact ⟨by decide, by decide⟩)
    have hshape : renderA (.paren a) ++ rest = '(' :: (renderA a ++ ')' :: rest) := by
      simp [renderA, List.append_assoc]
    rw [hshape]
    simp only [parseP,
      show ('(' : Char).isDigit = false by decide, Bool.false_eq_true, if_false,
      show ('(' : Char).isAlpha = false by decide, if_pos, hE2, canonA]
  | app fn a iha =>
    intro hw
    have hw0 := hw
    simp only [wfA, Bool.and_eq_true] at hw
    obtain ⟨hid, hwa⟩ := hw
    refine assemble4 _ hw0 (by simp [rankA]) ?_
    intro rest f hfol hle
    obtain ⟨c, t, hdata, hca, hta⟩ := isIdentStr_head fn hid
    have hcd : c.isDigit = false := isAlpha_isDigit_false c hca
    have hlen : ((renderA (.app fn a)) ++ rest).length
        = t.length + (renderA a).length + rest.length + 3 := by
      simp only [renderA, List.length_append, List.length_cons, List.length_nil, hdata]
      omega
    rw [hlen] at hle
    obtain ⟨f', rfl⟩ : ∃ f', f = f' + 1 := ⟨f - 1, by omega⟩
    have hag : alphaGo (t ++ '(' :: (renderA a ++ ')' :: rest))
        = (t, '(' :: (renderA a ++ ')' :: rest)) :=
      alphaGo_spec t _ hta (by intro x hx; simp at hx; subst hx; decide)
    have hmk : String.mk (c :: t) = fn := by rw [← hdata]
    have hE := (iha hwa).2.2.2.2 (')' :: rest) f'
      ⟨folP_lit _ _ (by decide) (by decide) (by decide), noSS_lit _ _ (by decide)⟩
      (notMD_lit _ _ (by decide) (by decide))
      (by simp only [List.length_append, List.length_cons]; omega)
    have hE2 : parseE f' (renderA a ++ ')' :: rest) = some (canonA a, ')' :: rest) := by
      rw [hE]
      obtain ⟨f'', rfl⟩ : ∃ f'', f' = f'' + 1 := ⟨f' - 1, by omega⟩
      exact parseE1_stop f'' _ _
        (by rintro c2 r0 heq; injection heq with h1 _; subst h1; exact ⟨by decide, by decide⟩)
    have hshape : renderA (.app fn a) ++ rest
        = c :: (t ++ '(' :: (renderA a ++ ')' :: rest)) := by
      simp [renderA, hdata, List.append_assoc]
    rw [hshape]
    simp only [parseP, hcd, Bool.false_eq_true, if_false, hca, if_pos, hag, hE2, hmk, canonA]
  | pow a b iha ihb =>
    intro hw
    simp only [wfA, Bool.and_eq_true, decide_eq_true_eq] at hw
    obtain ⟨⟨⟨hwa, hwb⟩, hra⟩, hrb⟩ := hw
    have hhead : ∃ c t, renderA (.pow a b) = c :: t ∧ c ≠ '-' := by
      obtain ⟨c, t, hct, h3⟩ := primHead a hwa hra
      refine ⟨c, t ++ '*' :: '*' :: renderA b, by simp [renderA, hct], ?_⟩
      rcases h3 with h | h | h
      · exact (isDigit_ne c h).2.2.1
      · exact (isAlpha_ne c h).2.2.1
      · subst h; decide
    refine assemble3 _ (by rfl) hhead ?_
    intro rest f hfol hle
    have hlen : (renderA (.pow a b) ++ rest).length
        = (renderA a).length + (renderA b).length + rest.length + 2 := by
      simp only [renderA, List.length_append, List.length_cons]
      omega
    rw [hlen] at hle
    obtain ⟨f', rfl⟩ : ∃ f', f = f' + 1 := ⟨f - 1, by omega⟩
    have hP := (iha hwa).1 hra ('*' :: '*' :: (renderA b ++ rest)) f'
      (folP_lit _ _ (by decide) (by decide) (by decide))
      (by simp only [List.length_append, List.length_cons]; omega)
    have hU := (ihb hwb).2.2.1 hrb rest f' hfol
      (by simp only [List.length_append]; omega)
    have hshape : renderA (.pow a b) ++ rest
        = renderA a ++ ('*' :: '*' :: (renderA b ++ rest)) := by
      simp [renderA, List.append_assoc]
    rw [hshape]
    simp only [parsePw, hP, hU, canonA]
  | neg a iha =>
    intro hw
    simp only [wfA, Bool.and_eq_true, decide_eq_true_eq] at hw
    obtain ⟨hwa, hra⟩ := hw
    refine assemble2 _ (by rfl) ?_
    intro rest f hfol hle
    have hlen : (renderA (.neg a) ++ rest).length
        = (renderA a).length + rest.length + 1 := by
      simp only [renderA, List.length_append, List.length_cons]
      omega
    rw [hlen] at hle
    obtain ⟨f', rfl⟩ : ∃ f', f = f' + 1 := ⟨f - 1, by omega⟩
    have hU := (iha hwa).2.2.1 hra rest f' hfol
      (by simp only [List.length_append]; omega)
    have hshape : renderA (.neg a) ++ rest = '-' :: (renderA a ++ rest) := by
      simp [renderA]
    rw [hshape]
    simp only [parseU, hU, canonA]
  | mul a b iha ihb =>
    intro hw
    simp only [wfA, Bool.and_eq_true, decide_eq_true_eq] at hw
    obtain ⟨⟨⟨hwa, hwb⟩, hra⟩, hrb⟩ := hw
    refine assemble1 _ (by rfl) ?_
    intro rest f hfol hle
    have hlen : (renderA (.mul a b) ++ rest).length
        = (renderA a).length + (renderA b).length + rest.length + 1 := by
      simp only [renderA, List.length_append, List.length_cons]
      omega
    rw [hlen] at hle
    obtain ⟨cb, tb, hcb, hb3⟩ := renderU_head b hwb hrb
    have hbs := headU_ne_star b hwb hrb
    have hT := (iha hwa).2.2.2.1 hra ('*' :: (renderA b ++ rest)) f
      ⟨folP_lit _ _ (by decide) (by decide) (by decide), by
        rintro ⟨r2, heq⟩
        injection heq with h1 h2
        rw [hcb] at h2
        injection h2 with h3 _
        exact absurd h3 (hbs cb (by rw [hcb]; simp)).1⟩
      (by simp only [List.length_append, List.length_cons]; omega)
    have hshape : renderA (.mul a b) ++ rest
        = renderA a ++ ('*' :: (renderA b ++ rest)) := by
      simp [renderA, List.append_assoc]
    rw [hshape, hT]
    obtain ⟨f', rfl⟩ : ∃ f', f = f' + 1 := ⟨f - 1, by omega⟩
    have hU := (ihb hwb).2.2.1 hrb rest f' hfol
      (by simp only [List.length_append]; omega)
    simp only [parseT1, hU, canonA]
    show parseT1 f' (SExpr.mul (canonA a) (canonA b)) rest
      = parseT1 (f' + 1) (SExpr.mul (canonA a) (canonA b)) rest
    have l1 := (parse_fuel f').2.2.2.1 (SExpr.mul (canonA a) (canonA b)) rest (by omega)
    have l2 := (parse_fuel (f' + 1)).2.2.2.1 (SExpr.mul (canonA a) (canonA b)) rest (by omega)
    rw [l1, l2]
  | div a b iha ihb =>
    intro hw
    simp only [wfA, Bool.and_eq_true, decide_eq_true_eq] at hw
    obtain ⟨⟨⟨hwa, hwb⟩, hra⟩, hrb⟩ := hw
    refine assemble1 _ (by rfl) ?_
    intro rest f hfol hle
    have hlen : (renderA (.div a b) ++ rest).length
        = (renderA a).length + (renderA b).length + rest.length + 1 := by
      simp only [renderA, List.length_append, List.length_cons]
      omega
    rw [hlen] at hle
    have hT := (iha hwa).2.2.2.1 hra ('/' :: (renderA b ++ rest)) f
      ⟨folP_lit _ _ (by decide) (by decide) (by decide), noSS_lit _ _ (by decide)⟩
      (by simp only [List.length_append, List.length_cons]; omega)
    have hshape : renderA (.div a b) ++ rest
        = renderA a ++ ('/' :: (renderA b ++ rest)) := by
      simp [renderA, List.append_assoc]
    rw [hshape, hT]
    obtain ⟨f', rfl⟩ : ∃ f', f = f' + 1 := ⟨f - 1, by omega⟩
    have hU := (ihb hwb).2.2.1 hrb rest f' hfol
      (by simp only [List.length_append]; omega)
    simp only [parseT1, hU, canonA]
    show parseT1 f' (SExpr.div (canonA a) (canonA b)) rest
      = parseT1 (f' + 1) (SExpr.div (canonA a) (canonA b)) rest
    have l1 := (parse_fuel f').2.2.2.1 (SExpr.div (canonA a) (canonA b)) rest (by omega)
    have l2 := (parse_fuel (f' + 1)).2.2.2.1 (SExpr.div (canonA a) (canonA b)) rest (by omega)
    rw [l1, l2]
  | add a b iha ihb =>
    intro hw
    simp only [wfA, Bool.and_eq_true, decide_eq_true_eq] at hw
    obtain ⟨⟨hwa, hwb⟩, hrb⟩ := hw
    refine assemble0 _ (by rfl) ?_
    intro rest f hfol hmd hle
    have hlen : (renderA (.add a b) ++ rest).length
        = (renderA a).length + (renderA b).length + rest.length + 1 := by
      simp only [renderA, List.length_append, List.length_cons]
      omega
    rw [hlen] at hle
    have hE := (iha hwa).2.2.2.2 ('+' :: (renderA b ++ rest)) f
      ⟨folP_lit _ _ (by decide) (by decide) (by decide), noSS_lit _ _ (by decide)⟩
      (notMD_lit _ _ (by decide) (by decide))
      (by simp only [List.length_append, List.length_cons]; omega)
    have hshape : renderA (.add a b) ++ rest
        = renderA a ++ ('+' :: (renderA b ++ rest)) := by
      simp [renderA, List.append_assoc]
    rw [hshape, hE]
    obtain ⟨f', rfl⟩ : ∃ f', f = f' + 1 := ⟨f - 1, by omega⟩
    have hT := (ihb hwb).2.2.2.1 hrb rest f' hfol
      (by simp only [List.length_append]; omega)
    simp only [parseE1, hT]
    obtain ⟨f'', rfl⟩ : ∃ f'', f' = f'' + 1 := ⟨f' - 1, by omega⟩
    rw [parseT1_stop f'' (canonA b) rest hmd]
    show parseE1 (f'' + 1) (SExpr.add (canonA a) (canonA b)) rest
      = parseE1 (f'' + 1 + 1) (canonA (.add a b)) rest
    simp only [canonA]
    have l1 := (parse_fuel (f'' + 1)).2.2.2.2.2.1 (SExpr.add (canonA a) (canonA b)) rest
      (by omega)
    have l2 := (parse_fuel (f'' + 1 + 1)).2.2.2.2.2.1 (SExpr.add (canonA a) (canonA b)) rest
      (by omega)
    rw [l1, l2]
  | sub a b iha ihb =>
    intro hw
    simp only [wfA, Bool.and_eq_true, decide_eq_true_eq] at hw
    obtain ⟨⟨hwa, hwb⟩, hrb⟩ := hw
    refine assemble0 _ (by rfl) ?_
    intro rest f hfol hmd hle
    have hlen : (renderA (.sub a b) ++ rest).length
        = (renderA a).length + (renderA b).length + rest.length + 1 := by
      simp only [renderA, List.length_append, List.length_cons]
      omega
    rw [hlen] at hle
    have hE := (iha hwa).2.2.2.2 ('-' :: (renderA b ++ rest)) f
      ⟨folP_lit _ _ (by decide) (by decide) (by decide), noSS_lit _ _ (by decide)⟩
      (notMD_lit _ _ (by decide) (by decide))
      (by simp only [List.length_append, List.length_cons]; omega)
    have hshape : renderA (.sub a b) ++ rest
        = renderA a ++ ('-' :: (renderA b ++ rest)) := by
      simp [renderA, List.append_assoc]
    rw [hshape, hE]
    obtain ⟨f', rfl⟩ : ∃ f', f = f' + 1 := ⟨f - 1, by omega⟩
    have hT := (ihb hwb).2.2.2.1 hrb rest f' hfol
      (by simp only [List.length_append]; omega)
    simp only [parseE1, hT]
    obtain ⟨f'', rfl⟩ : ∃ f'', f' = f'' + 1 := ⟨f' - 1, by omega⟩
    rw [parseT1_stop f'' (canonA b) rest hmd]
    show parseE1 (f'' + 1) (SExpr.sub (canonA a) (canonA b)) rest
      = parseE1 (f'' + 1 + 1) (canonA (.sub a b)) rest
    simp only [canonA]
    have l1 := (parse_fuel (f'' + 1)).2.2.2.2.2.1 (SExpr.sub (canonA a) (canonA b)) rest
      (by omega)
    have l2 := (parse_fuel (f'' + 1 + 1)).2.2.2.2.2.1 (SExpr.sub (canonA a) (canonA b)) rest
      (by omega)
    rw [l1, l2]

/-- Top-level parser correctness: the model of `sympify` maps the
rendering of any well-formed grammar tree to its SymPy tree. -/
theorem sympify_render (a : AG) (hw : wfA a = true) :
    sympifyModel (String.mk (renderA a)) = .ok (canonA a) := by
  have hE := (parse_render a hw).2.2.2.2 [] (pfuel (renderA a))
    ⟨folP_nil, noSS_nil⟩ notMD_nil
    (by simp only [List.append_nil, pfuel]; omega)
  rw [List.append_nil] at hE
  show (match parseE (pfuel (renderA a)) (renderA a) with
    | some (e, []) => Except.ok e
    | _ => Except.error PyExc.sympifyError) = Except.ok (canonA a)
  rw [hE]
  obtain ⟨g, hg⟩ : ∃ g, pfuel (renderA a) = g + 1 :=
    ⟨9 * (renderA a).length + 8, by simp [pfuel]⟩
  rw [hg, parseE1_stop g _ _ (by rintro c r0 heq; simp at heq)]

/-! ## Semantics of pure arithmetic trees -/

theorem evalSym_arith (reg : List (String × RegEntry)) (env : String → PyVal) :
    ∀ (a : AG) (v : ℚ), qevalA a = some v →
      evalSym reg env (canonA a) = .ok (.num (v : ℝ)) := by
  intro a
  induction a with
  | num n =>
    intro v hv
    simp only [qevalA, Option.some.injEq] at hv
    subst hv
    simp [canonA, evalSym]
  | sym name => intro v hv; simp [qevalA] at hv
  | cpi => intro v hv; simp [qevalA] at hv
  | ce => intro v hv; simp [qevalA] at hv
  | neg a ih =>
    intro v hv
    simp only [qevalA, Option.map_eq_some'] at hv
    obtain ⟨x, hx, rfl⟩ := hv
    simp only [canonA, evalSym, ih x hx]
    simp [bind, Except.bind]
  | add a b iha ihb =>
    intro v hv
    simp only [qevalA, bind, Option.bind_eq_some, Option.pure_def, Option.some.injEq] at hv
    obtain ⟨x, hx, y, hy, rfl⟩ := hv
    simp only [canonA, evalSym, iha x hx, ihb y hy]
    simp [bind, Except.bind]
  | sub a b iha ihb =>
    intro v hv
    simp only [qevalA, bind, Option.bind_eq_some, Option.pure_def, Option.some.injEq] at hv
    obtain ⟨x, hx, y, hy, rfl⟩ := hv
    simp only [canonA, evalSym, iha x hx, ihb y hy]
    simp [bind, Except.bind]
  | mul a b iha ihb =>
    intro v hv
    simp only [qevalA, bind, Option.bind_eq_some, Option.pure_def, Option.some.injEq] at hv
    obtain ⟨x, hx, y, hy, rfl⟩ := hv
    simp only [canonA, evalSym, iha x hx, ihb y hy]
    simp [bind, Except.bind]
  | div a b iha ihb =>
    intro v hv
    simp only [qevalA, bind, Option.bind_eq_some, Option.pure_def] at hv
    obtain ⟨x, hx, y, hy, hv⟩ := hv
    have hy0 : y ≠ 0 := by
      intro h
      subst h
      simp at hv
    rw [if_neg hy0] at hv
    simp only [Option.some.injEq] at hv
    subst hv
    have hy0R : ((y : ℚ) : ℝ) ≠ 0 := by exact_mod_cast hy0
    simp only [canonA, evalSym, iha x hx, ihb y hy]
    simp [bind, Except.bind, if_neg hy0R, div_eq_mul_inv]
    exact hy0
  | pow a b iha ihb => intro v hv; simp [qevalA] at hv
  | app fn a iha => intro v hv; simp [qevalA] at hv
  | paren a ih =>
    intro v hv
    simp only [qevalA] at hv
    simp only [canonA]
    exact ih v hv

/-! ## Registry lookup facts -/

theorem lookupA_reg_none (n : String) (h : ¬ n ∈ regKeys) :
    lookupA registryModel n = none := by
  simp only [regKeys, List.mem_cons, List.not_mem_nil, or_false, not_or] at h
  obtain ⟨h1, h2, h3, h4, h5, h6, h7, h8, h9, h10, h11, h12, h13, h14, h15,
    h16, h17⟩ := h
  simp [registryModel, lookupA, Ne.symm h1, Ne.symm h2, Ne.symm h3, Ne.symm h4,
    Ne.symm h5, Ne.symm h6, Ne.symm h7, Ne.symm h8, Ne.symm h9, Ne.symm h10,
    Ne.symm h11, Ne.symm h12, Ne.symm h13, Ne.symm h14, Ne.symm h15,
    Ne.symm h16, Ne.symm h17]

theorem envBinding_not_mem (n : String) (h : ¬ n ∈ regKeys) :
    envBinding registryModel n = .num 0 := by
  simp only [envBinding, lookupA_reg_none n h]

theorem pyFactorial_nat (n : ℕ) :
    pyFactorial (n : ℝ) = .ok ((Nat.factorial n : ℕ) : ℝ) := by
  have hex : ∃ m : ℕ, (n : ℝ) = (m : ℝ) := ⟨n, rfl⟩
  simp only [pyFactorial, dif_pos hex]
  have hch : hex.choose = n := by
    have hs := hex.choose_spec
    exact_mod_cast hs.symm
  rw [hch]


/-! ## Claim C1: the error boundary -/

/-- C1 counterexample: evaluating `factorial(x-1)` escapes the `evaluate`
boundary. The free symbol `x` is bound to `0`, so the callable computes
`math.factorial(-1)`, which raises `ValueError` — a class absent from
`safe_eval`'s `except` tuple — and the exception propagates to the
caller as an uncaught fault instead of becoming the typed error. -/
theorem C1_factorial_fault :
    safe_eval "factorial(x-1)" registryModel = .fault .valueError := by
  have hp : sympifyModel "factorial(x-1)" =
      Except.ok (SExpr.app "factorial"
        (SExpr.sub (SExpr.sym "x") (SExpr.num 1))) := by decide
  have hl : lookupA registryModel "factorial" = some (.fnE pyFactorial) := by
    simp [registryModel, lookupA]
  have hx : envBinding registryModel "x" = .num 0 :=
    envBinding_not_mem "x" (by decide)
  have hneg : ¬ ∃ m : ℕ, (-1 : ℝ) = (m : ℝ) := by
    rintro ⟨m, hm⟩
    have h0 : (0 : ℝ) ≤ (m : ℝ) := Nat.cast_nonneg m
    linarith
  have hfac : pyFactorial (-1 : ℝ) = .error .valueError := by
    simp only [pyFactorial, dif_neg hneg]
  have e1 : (0 : ℝ) - ((1 : ℚ) : ℝ) = -1 := by norm_num
  simp [safe_eval, hp, evalSym, hl, hx, bind, Except.bind, e1, hfac, caughtEval, Except.map]

/-- C1 (corrected): the boundary converts exactly the exception classes
listed in each handler's `except` tuple. Every evaluate request ends in
a value, in the "Invalid Expression" typed error, or in a fault whose
exception class lies outside `safe_eval`'s caught set (such a fault is
reachable: see the `factorial(x-1)` counterexample); likewise for the
two calculus handlers with their own caught set. -/
theorem C1_error_boundary_amended :
    (∀ (s : String) (d : List (String × RegEntry)),
      (∃ v, safe_eval s d = .ok v) ∨
      safe_eval s d = .err .invalidExpression ∨
      ∃ exc, safe_eval s d = .fault exc ∧ caughtEval exc = false) ∧
    (∀ fQ fR st f v (lo hi : ℚ),
      (∃ val er, (integralH fQ fR st f v lo hi).2 = .ok val er) ∨
      (integralH fQ fR st f v lo hi).2 = .err .integrationError ∨
      ∃ exc, (integralH fQ fR st f v lo hi).2 = .fault exc ∧
        caughtCalculus exc = false) ∧
    (∀ fQ fE st f v (p : ℚ),
      (∃ d val, (derivH fQ fE st f v p).2 = .ok d val) ∨
      (derivH fQ fE st f v p).2 = .err .differentiationError ∨
      ∃ exc, (derivH fQ fE st f v p).2 = .fault exc ∧
        caughtCalculus exc = false) := by
  refine ⟨?_, ?_, ?_⟩
  · intro s d
    rcases hs : sympifyModel s with exc | e
    · by_cases hc : caughtEval exc = true
      · right; left; simp [safe_eval, hs, hc]
      · right; right
        refine ⟨exc, ?_, by simpa using hc⟩
        simp [safe_eval, hs, hc]
    · rcases he : evalSym d (envBinding d) e with exc | v
      · by_cases hc : caughtEval exc = true
        · right; left; simp [safe_eval, hs, he, hc]
        · right; right
          refine ⟨exc, ?_, by simpa using hc⟩
          simp [safe_eval, hs, he, hc]
      · left; exact ⟨v, by simp [safe_eval, hs, he]⟩
  · intro fQ fR st f v lo hi
    rcases hc : integralCore f v lo hi with exc | ⟨val, er⟩
    · by_cases hb : caughtCalculus exc = true
      · right; left; simp [integralH, hc, hb]
      · right; right
        refine ⟨exc, ?_, by simpa using hb⟩
        simp [integralH, hc, hb]
    · left; exact ⟨val, er, by simp [integralH, hc]⟩
  · intro fQ fE st f v p
    rcases hc : derivCore f v p with exc | ⟨d, val⟩
    · by_cases hb : caughtCalculus exc = true
      · right; left; simp [derivH, hc, hb]
      · right; right
        refine ⟨exc, ?_, by simpa using hb⟩
        simp [derivH, hc, hb]
    · left; exact ⟨d, val, by simp [derivH, hc]⟩

/-! ## Claim C2: the display/normalize round trip -/

theorem replace1_append (p : Char) (rep : List Char) :
    ∀ xs ys, replace1 p rep (xs ++ ys) =
      replace1 p rep xs ++ replace1 p rep ys := by
  intro xs ys
  induction xs with
  | nil => rfl
  | cons c cs ih => simp [replace1, ih]

theorem mem_replace1 (p : Char) (rep : List Char) (c : Char) :
    ∀ cs, c ∈ replace1 p rep cs → c ∈ rep ∨ (c ∈ cs ∧ c ≠ p) := by
  intro cs
  induction cs with
  | nil => intro h; simp [replace1] at h
  | cons d ds ih =>
    intro h
    simp only [replace1, List.mem_append] at h
    rcases h with h | h
    · by_cases hd : d = p
      · rw [if_pos hd] at h
        exact Or.inl h
      · rw [if_neg hd] at h
        simp only [List.mem_singleton] at h
        subst h
        exact Or.inr ⟨List.mem_cons_self _ _, hd⟩
    · rcases ih h with h' | ⟨h1, h2⟩
      · exact Or.inl h'
      · exact Or.inr ⟨List.mem_cons_of_mem _ h1, h2⟩

theorem replace1_id (p : Char) (rep : List Char) :
    ∀ cs, ¬ p ∈ cs → replace1 p rep cs = cs := by
  intro cs
  induction cs with
  | nil => intro _; rfl
  | cons c cs ih =>
    intro h
    simp only [List.mem_cons, not_or] at h
    simp [replace1, Ne.symm h.1, ih h.2]

theorem replace1_self_not_mem (p : Char) (rep : List Char) (hp : ¬ p ∈ rep)
    (cs : List Char) : ¬ p ∈ replace1 p rep cs := by
  intro hm
  rcases mem_replace1 _ _ _ _ hm with h | ⟨_, h2⟩
  · exact hp h
  · exact h2 rfl

theorem replace1_idem (p : Char) (rep : List Char) (hp : ¬ p ∈ rep)
    (cs : List Char) :
    replace1 p rep (replace1 p rep cs) = replace1 p rep cs :=
  replace1_id p rep _ (replace1_self_not_mem p rep hp cs)

theorem replace1_comm (p q : Char) (rp rq : List Char) (hpq : p ≠ q)
    (hp : ¬ p ∈ rq) (hq : ¬ q ∈ rp) :
    ∀ cs, replace1 p rp (replace1 q rq cs) =
      replace1 q rq (replace1 p rp cs) := by
  intro cs
  induction cs with
  | nil => rfl
  | cons c cs ih =>
    by_cases hcq : c = q
    · subst hcq
      have l1 : replace1 c rq (c :: cs) = rq ++ replace1 c rq cs := by
        simp [replace1]
      have l2 : replace1 p rp (c :: cs) = c :: replace1 p rp cs := by
        simp [replace1, Ne.symm hpq]
      rw [l1, replace1_append, replace1_id p rp rq hp, ih, l2]
      simp [replace1]
    · by_cases hcp : c = p
      · subst hcp
        have l1 : replace1 q rq (c :: cs) = c :: replace1 q rq cs := by
          simp [replace1, hcq]
        have l2 : replace1 c rp (c :: cs) = rp ++ replace1 c rp cs := by
          simp [replace1]
        rw [l1, l2, replace1_append, replace1_id q rq rp hq]
        simp [replace1, ih]
      · simp [replace1, hcq, hcp, ih]

theorem replace2_id (p1 p2 : Char) (rep : List Char) :
    ∀ cs, ¬ p1 ∈ cs → replace2 p1 p2 rep cs = cs := by
  intro cs
  induction cs with
  | nil => intro _; rfl
  | cons c rest ih =>
    intro h
    simp only [List.mem_cons, not_or] at h
    cases rest with
    | nil => rfl
    | cons c2 cs2 =>
      simp only [replace2]
      rw [if_neg (fun hand => h.1 (Eq.symm hand.1))]
      rw [ih h.2]

/-- C2 counterexample: the heavy-multiplication shorthand. The canonical
form of `2✖️3` is `2*3`, which parses and evaluates to `6`; its display
form is `2×3` (`U+00D7`), and re-deriving the canonical form from the
displayed string leaves `×` untouched — the normalizer has no
substitution for the display glyphs themselves — so the round-tripped
expression fails to parse and evaluation reports the typed
"Invalid Expression" error instead of multiplication. -/
theorem C2_multiplication_glyph_diverges :
    transform_display "2✖️3" = "2×3" ∧
    normalizeEval "2✖️3" = "2*3" ∧
    normalizeEval (transform_display "2✖️3") = "2×3" ∧
    sympifyModel (normalizeEval "2✖️3") =
      .ok (.mul (.num 2) (.num 3)) ∧
    sympifyModel (normalizeEval (transform_display "2✖️3")) =
      .error .sympifyError ∧
    safe_eval (normalizeEval "2✖️3") registryModel = .ok (.num 6) ∧
    safe_eval (normalizeEval (transform_display "2✖️3")) registryModel =
      .err .invalidExpression := by
  have hn : normalizeEval "2✖️3" = "2*3" := by decide
  have hd : normalizeEval (transform_display "2✖️3") = "2×3" := by decide
  have hp : sympifyModel "2*3" = .ok (.mul (.num 2) (.num 3)) := by decide
  have hq : sympifyModel "2×3" = .error .sympifyError := by decide
  refine ⟨by decide, hn, hd, by rw [hn]; exact hp, by rw [hd]; exact hq,
    ?_, ?_⟩
  · rw [hn]
    simp [safe_eval, hp, evalSym, bind, Except.bind]
    norm_num
  · rw [hd]
    simp [safe_eval, hq, caughtEval]

/-- C2 (corrected): the round trip preserves semantics exactly on the
glyph-free fragment. When the expression contains neither the
heavy-multiplication (`✖️`) nor the heavy-division (`➗`) shorthand —
whose display glyphs `×`, `÷` have no normalizer substitution —
normalizing the displayed form gives the same canonical string as
normalizing the original, so the `➕`/`➖` glyphs do round-trip. -/
theorem C2_display_normalize_roundtrip_amended (s : String)
    (h1 : ¬ '✖' ∈ s.data) (h2 : ¬ '➗' ∈ s.data) :
    normalizeEval (transform_display s) = normalizeEval s := by
  have hA : ¬ '✖' ∈ replace1 '➖' ['-'] (replace1 '➕' ['+'] s.data) := by
    intro hm
    rcases mem_replace1 _ _ _ _ hm with h | ⟨h, _⟩
    · simp at h
    · rcases mem_replace1 _ _ _ _ h with h' | ⟨h', _⟩
      · simp at h'
      · exact h1 h'
  have hB := replace2_id '✖' '️' ['×'] _ hA
  have hC : ¬ '➗' ∈ replace1 '➖' ['-'] (replace1 '➕' ['+'] s.data) := by
    intro hm
    rcases mem_replace1 _ _ _ _ hm with h | ⟨h, _⟩
    · simp at h
    · rcases mem_replace1 _ _ _ _ h with h' | ⟨h', _⟩
      · simp at h'
      · exact h2 h'
  have hTD : transform_display s =
      String.mk (replace1 '➖' ['-'] (replace1 '➕' ['+'] s.data)) := by
    rw [transform_display, hB, replace1_id '➗' ['÷'] _ hC]
  rw [hTD, normalizeEval, normalizeEval]
  show String.mk (replace1 '^' ['*', '*']
    (replace2 '✖' '️' ['*']
      (replace1 '➗' ['/']
        (replace1 '➖' ['-']
          (replace1 '➕' ['+']
            (replace1 'π' ['p', 'i']
              (replace1 '➖' ['-'] (replace1 '➕' ['+'] s.data)))))))) = _
  have key : replace1 '➖' ['-']
      (replace1 '➕' ['+']
        (replace1 'π' ['p', 'i']
          (replace1 '➖' ['-'] (replace1 '➕' ['+'] s.data)))) =
      replace1 '➖' ['-'] (replace1 '➕' ['+'] (replace1 'π' ['p', 'i'] s.data)) := by
    rw [replace1_comm 'π' '➖' ['p', 'i'] ['-'] (by decide) (by decide) (by decide),
      replace1_comm 'π' '➕' ['p', 'i'] ['+'] (by decide) (by decide) (by decide),
      replace1_comm '➕' '➖' ['+'] ['-'] (by decide) (by decide) (by decide),
      replace1_idem '➕' ['+'] (by decide),
      replace1_idem '➖' ['-'] (by decide)]
  rw [key]

/-- Witness for C2: the round trip on `1➕2➖3π^2`, an expression using
both shorthand glyphs that do round-trip, plus the π and caret
substitutions. -/
theorem C2_roundtrip_witness :
    ¬ '✖' ∈ ("1➕2➖3π^2" : String).data ∧
    ¬ '➗' ∈ ("1➕2➖3π^2" : String).data ∧
    normalizeEval (transform_display "1➕2➖3π^2") = normalizeEval "1➕2➖3π^2" :=
  ⟨by decide, by decide,
    C2_display_normalize_roundtrip_amended "1➕2➖3π^2" (by decide) (by decide)⟩

/-! ## Claim C3: free-symbol resolution -/

/-- C3: before the callable is invoked, each free symbol is bound through
`local_dict.get(str(s), 0)`: to the registry's value when the name is a
registry key (the constant's number, or the function object for function
entries), and to `0` otherwise. End to end, evaluating the unbound name
`x` yields `0`, and evaluating the bare registry name `abs` yields that
registry entry's function object. -/
theorem C3_free_symbol_binding :
    (∀ n r, lookupA registryModel n = some (.constE r) →
      envBinding registryModel n = .num r) ∧
    (∀ n g, lookupA registryModel n = some (.fnE g) →
      envBinding registryModel n = .fnObj n) ∧
    (∀ n, ¬ n ∈ regKeys → envBinding registryModel n = .num 0) ∧
    safe_eval "x" registryModel = .ok (.num 0) ∧
    safe_eval "abs" registryModel = .ok (.fnObj "abs") := by
  refine ⟨?_, ?_, ?_, ?_, ?_⟩
  · intro n r h
    simp only [envBinding, h]
  · intro n g h
    simp only [envBinding, h]
  · intro n h
    exact envBinding_not_mem n h
  · have hp : sympifyModel "x" = .ok (.sym "x") := by decide
    simp [safe_eval, hp, evalSym, envBinding_not_mem "x" (by decide)]
  · have hp : sympifyModel "abs" = .ok (.sym "abs") := by decide
    have hl : lookupA registryModel "abs" =
        some (.fnE fun r => .ok |r|) := by
      simp [registryModel, lookupA]
    simp [safe_eval, hp, evalSym, envBinding, hl]

/-- Witness for C3: the constant entry `pi`, the function entry `abs`,
and the unbound name `y`. -/
theorem C3_binding_witness :
    lookupA registryModel "pi" = some (.constE Real.pi) ∧
    envBinding registryModel "pi" = .num Real.pi ∧
    lookupA registryModel "abs" = some (.fnE fun r => .ok |r|) ∧
    envBinding registryModel "abs" = .fnObj "abs" ∧
    ¬ "y" ∈ regKeys ∧
    envBinding registryModel "y" = .num 0 := by
  have h1 : lookupA registryModel "pi" = some (.constE Real.pi) := by
    simp [registryModel, lookupA]
  have h2 : lookupA registryModel "abs" = some (.fnE fun r => .ok |r|) := by
    simp [registryModel, lookupA]
  exact ⟨h1, C3_free_symbol_binding.1 "pi" Real.pi h1, h2,
    C3_free_symbol_binding.2.1 "abs" _ h2, by decide,
    C3_free_symbol_binding.2.2.1 "y" (by decide)⟩

/-! ## Claim C4: no partial mutation on failure -/

/-- C4: when any of the three request handlers reports a typed error (or
an uncaught fault), the caller-visible session state — the in-progress
expression and the history log — is returned exactly as it was, and the
equals handler changes the history only on a success outcome. -/
theorem C4_no_mutation_on_failure :
    (∀ fmt st e, (equalsH fmt st).2 = some (.err e) →
      (equalsH fmt st).1 = st) ∧
    (∀ fmt st exc, (equalsH fmt st).2 = some (.fault exc) →
      (equalsH fmt st).1 = st) ∧
    (∀ fQ fR st f v (lo hi : ℚ) e,
      (integralH fQ fR st f v lo hi).2 = .err e →
      (integralH fQ fR st f v lo hi).1 = st) ∧
    (∀ fQ fR st f v (lo hi : ℚ) exc,
      (integralH fQ fR st f v lo hi).2 = .fault exc →
      (integralH fQ fR st f v lo hi).1 = st) ∧
    (∀ fQ fE st f v (p : ℚ) e,
      (derivH fQ fE st f v p).2 = .err e →
      (derivH fQ fE st f v p).1 = st) ∧
    (∀ fQ fE st f v (p : ℚ) exc,
      (derivH fQ fE st f v p).2 = .fault exc →
      (derivH fQ fE st f v p).1 = st) ∧
    (∀ fmt st, (equalsH fmt st).1.history ≠ st.history →
      ∃ v, (equalsH fmt st).2 = some (.ok v)) := by
  refine ⟨?_, ?_, ?_, ?_, ?_, ?_, ?_⟩
  · intro fmt st e h
    by_cases hemp : st.expression = ""
    · simp [equalsH, hemp]
    · rcases hs : safe_eval (normalizeEval st.expression) registryModel
        with v | e2 | exc
      · simp [equalsH, hemp, hs] at h
      · simp [equalsH, hemp, hs]
      · simp [equalsH, hemp, hs] at h
  · intro fmt st exc h
    by_cases hemp : st.expression = ""
    · simp [equalsH, hemp]
    · rcases hs : safe_eval (normalizeEval st.expression) registryModel
        with v | e2 | exc2
      · simp [equalsH, hemp, hs] at h
      · simp [equalsH, hemp, hs]
      · simp [equalsH, hemp, hs]
  · intro fQ fR st f v lo hi e h
    rcases hc : integralCore f v lo hi with exc | ⟨val, er⟩
    · by_cases hb : caughtCalculus exc = true
      · simp [integralH, hc, hb]
      · simp [integralH, hc, hb] at h
    · simp [integralH, hc] at h
  · intro fQ fR st f v lo hi exc h
    rcases hc : integralCore f v lo hi with exc2 | ⟨val, er⟩
    · by_cases hb : caughtCalculus exc2 = true
      · simp [integralH, hc, hb] at h
      · simp [integralH, hc, hb]
    · simp [integralH, hc] at h
  · intro fQ fE st f v p e h
    rcases hc : derivCore f v p with exc | ⟨d, val⟩
    · by_cases hb : caughtCalculus exc = true
      · simp [derivH, hc, hb]
      · simp [derivH, hc, hb] at h
    · simp [derivH, hc] at h
  · intro fQ fE st f v p exc h
    rcases hc : derivCore f v p with exc2 | ⟨d, val⟩
    · by_cases hb : caughtCalculus exc2 = true
      · simp [derivH, hc, hb] at h
      · simp [derivH, hc, hb]
    · simp [derivH, hc] at h
  · intro fmt st hne
    by_cases hemp : st.expression = ""
    · simp [equalsH, hemp] at hne
    · rcases hs : safe_eval (normalizeEval st.expression) registryModel
        with v | e2 | exc
      · exact ⟨v, by simp [equalsH, hemp, hs]⟩
      · simp [equalsH, hemp, hs] at hne
      · simp [equalsH, hemp, hs] at hne

/-- Witness for C4: failing requests in each mode — an unparsable
expression on equals, an unparsable integrand in integral mode, and a
non-symbol variable (`2`) in derivative mode — leave the state exactly
as it was. -/
theorem C4_failure_witness :
    (equalsH (fun _ => "") ⟨"(", []⟩).2 = some (.err .invalidExpression) ∧
    (equalsH (fun _ => "") ⟨"(", []⟩).1 = ⟨"(", []⟩ ∧
    (integralH (fun _ => "") (fun _ => "") ⟨"", []⟩ "(" "x" 0 1).2 =
      .err .integrationError ∧
    (integralH (fun _ => "") (fun _ => "") ⟨"", []⟩ "(" "x" 0 1).1 = ⟨"", []⟩ ∧
    (derivH (fun _ => "") (fun _ => "") ⟨"", []⟩ "x" "2" 0).2 =
      .err .differentiationError ∧
    (derivH (fun _ => "") (fun _ => "") ⟨"", []⟩ "x" "2" 0).1 = ⟨"", []⟩ := by
  have hp : sympifyModel "(" = .error .sympifyError := by decide
  have hn : normalizeEval "(" = "(" := by decide
  have h1 : (equalsH (fun _ => "") ⟨"(", []⟩).2 =
      some (.err .invalidExpression) := by
    simp [equalsH, hn, safe_eval, hp, caughtEval]
  have hv : sympifyModel "2" = .ok (.num 2) := by decide
  have hf : sympifyModel "x" = .ok (.sym "x") := by decide
  have h3 : (integralH (fun _ => "") (fun _ => "") ⟨"", []⟩ "(" "x" 0 1).2 =
      .err .integrationError := by
    simp [integralH, integralCore, hp, hf, bind, Except.bind, caughtCalculus]
  have h5 : (derivH (fun _ => "") (fun _ => "") ⟨"", []⟩ "x" "2" 0).2 =
      .err .differentiationError := by
    simp [derivH, derivCore, hv, hf, bind, Except.bind, caughtCalculus]
  exact ⟨h1, C4_no_mutation_on_failure.1 _ _ _ h1, h3,
    C4_no_mutation_on_failure.2.2.1 _ _ _ _ _ _ _ _ h3, h5,
    C4_no_mutation_on_failure.2.2.2.2.1 _ _ _ _ _ _ _ h5⟩

/-! ## Claim C5: unknown function names -/

/-- C6: for every well-formed expression string of the pure-arithmetic
grammar — numerals, `+ - * /`, unary minus and parentheses, quantified
as the render of a well-formed grammar tree with a defined rational
value — `evaluate` succeeds and returns exactly that value. -/
theorem C6_arithmetic_exact (a : AG) (hw : wfA a = true) (v : ℚ)
    (hv : qevalA a = some v) :
    safe_eval (String.mk (renderA a)) registryModel = .ok (.num (v : ℝ)) := by
  have hres := sympify_render a hw
  have heval := evalSym_arith registryModel (envBinding registryModel) a v hv
  simp [safe_eval, hres, heval]

/-- Witness for C6: `evaluate("2+3*4")` returns exactly `14`. -/
theorem C6_arithmetic_witness :
    String.mk (renderA (AG.add (AG.num 2) (AG.mul (AG.num 3) (AG.num 4)))) =
      "2+3*4" ∧
    wfA (AG.add (AG.num 2) (AG.mul (AG.num 3) (AG.num 4))) = true ∧
    qevalA (AG.add (AG.num 2) (AG.mul (AG.num 3) (AG.num 4))) = some 14 ∧
    safe_eval "2+3*4" registryModel = .ok (.num ((14 : ℚ) : ℝ)) := by
  have hq : qevalA (AG.add (AG.num 2) (AG.mul (AG.num 3) (AG.num 4))) =
      some 14 := by
    simp [qevalA, bind, Option.bind]
    norm_num
  refine ⟨by decide, by decide, hq, ?_⟩
  have h := C6_arithmetic_exact
    (AG.add (AG.num 2) (AG.mul (AG.num 3) (AG.num 4))) (by decide) 14 hq
  rwa [(by decide : String.mk
    (renderA (AG.add (AG.num 2) (AG.mul (AG.num 3) (AG.num 4)))) = "2+3*4")] at h

/-! ## Claim C7: the registry and its dispatch -/

/-- C7: the registry maps exactly the seventeen documented names, with
`log` the base-10 and `ln` the natural logarithm, and evaluation
dispatches through it: `sin(0)` evaluates to `0`, `factorial(5)` to
`120`, and `sqrt(16)` to `4`. -/
theorem C7_registry_dispatch :
    registryModel.map Prod.fst = regKeys ∧
    regKeys = ["sin", "cos", "tan", "asin", "acos", "atan", "sinh", "cosh",
      "tanh", "log", "ln", "sqrt", "exp", "pi", "e", "abs", "factorial"] ∧
    lookupA registryModel "log" =
      some (.fnE fun r => .ok (Real.logb 10 r)) ∧
    lookupA registryModel "ln" = some (.fnE fun r => .ok (Real.log r)) ∧
    safe_eval "sin(0)" registryModel = .ok (.num 0) ∧
    safe_eval "factorial(5)" registryModel = .ok (.num 120) ∧
    safe_eval "sqrt(16)" registryModel = .ok (.num 4) := by
  refine ⟨rfl, rfl, by simp [registryModel, lookupA],
    by simp [registryModel, lookupA], ?_, ?_, ?_⟩
  · have hp : sympifyModel "sin(0)" = .ok (.app "sin" (.num 0)) := by decide
    have hl : lookupA registryModel "sin" =
        some (.fnE fun r => .ok (Real.sin r)) := by
      simp [registryModel, lookupA]
    simp [safe_eval, hp, evalSym, hl, bind, Except.bind, Except.map,
      Rat.cast_zero, Real.sin_zero]
  · have hp : sympifyModel "factorial(5)" =
        .ok (.app "factorial" (.num 5)) := by decide
    have hl : lookupA registryModel "factorial" =
        some (.fnE pyFactorial) := by
      simp [registryModel, lookupA]
    have h5 : ((5 : ℕ) : ℝ) = (5 : ℝ) := by norm_num
    have hfac : pyFactorial (5 : ℝ) = .ok (120 : ℝ) := by
      rw [← h5, pyFactorial_nat 5]
      norm_num [Nat.factorial]
    simp [safe_eval, hp, evalSym, hl, bind, Except.bind, Except.map, hfac]
  · have hp : sympifyModel "sqrt(16)" = .ok (.app "sqrt" (.num 16)) := by
      decide
    have hl : lookupA registryModel "sqrt" =
        some (.fnE fun r => .ok (Real.sqrt r)) := by
      simp [registryModel, lookupA]
    have hc : (16 : ℝ) = 4 ^ 2 := by norm_num
    have hs : Real.sqrt (16 : ℝ) = 4 := by
      rw [hc, Real.sqrt_sq (by norm_num : (0 : ℝ) ≤ 4)]
    simp [safe_eval, hp, evalSym, hl, bind, Except.bind, Except.map, hs]

/-! ## Claim C9: numeric quadrature -/

theorem integralCore_xsq (lo hi : ℚ) :
    integralCore "x**2" "x" lo hi =
      .ok (((hi : ℝ) ^ 3 - (lo : ℝ) ^ 3) / 3, 0) := by
  have hv : sympifyModel "x" = .ok (.sym "x") := by decide
  have hf : sympifyModel "x**2" = .ok (.pow (.sym "x") (.num 2)) := by decide
  have hg : ∀ t : ℝ, (evalNumEnv (fun m => if m = "x" then some t else none)
      (SExpr.pow (SExpr.sym "x") (SExpr.num 2))).getD 0 = t ^ (2 : ℕ) := by
    intro t
    simp [evalNumEnv, bind]
  simp only [integralCore, hv, hf, bind, Except.bind, freeSymsList,
    List.all_cons, List.all_nil, quadModel]
  norm_num
  rw [show (fun t : ℝ =>
      (evalNumEnv (fun m => if m = "x" then some t else none)
        (SExpr.pow (SExpr.sym "x") (SExpr.num 2))).getD 0) =
      fun t : ℝ => t ^ (2 : ℕ) from funext hg]
  rw [integral_pow]
  norm_num

/-- C9: the integral handler runs numeric quadrature over the requested
interval and returns the value together with the estimated absolute
error (exactly `0` under the exact-quadrature idealization of
`scipy.integrate.quad`). For `x**2` the value is the antiderivative
difference for every pair of limits — in particular `1/3` on `[0, 1]` —
and reversed limits are passed straight through, yielding the
sign-reversed value `-(1/3)` on `(1, 0)` rather than a rejection. -/
theorem C9_quadrature :
    (∀ lo hi : ℚ, integralCore "x**2" "x" lo hi =
      .ok (((hi : ℝ) ^ 3 - (lo : ℝ) ^ 3) / 3, 0)) ∧
    integralCore "x**2" "x" 0 1 = .ok (1 / 3, 0) ∧
    integralCore "x**2" "x" 1 0 = .ok (-(1 / 3), 0) := by
  refine ⟨integralCore_xsq, ?_, ?_⟩
  · rw [integralCore_xsq 0 1]
    norm_num
  · rw [integralCore_xsq 1 0]
    norm_num

/-! ## Claim C8: symbolic differentiation -/

theorem evalNumEnv_num (env : String → Option ℝ) (q : ℚ) :
    evalNumEnv env (.num q) = some ((q : ℝ)) := rfl

theorem evalNumEnv_sadd (env : String → Option ℝ) (a b : SExpr)
    (va vb : ℝ) (ha : evalNumEnv env a = some va)
    (hb : evalNumEnv env b = some vb) :
    evalNumEnv env (sadd a b) = some (va + vb) := by
  by_cases h1 : a = SExpr.num 0
  · subst h1
    rw [evalNumEnv_num, Option.some.injEq] at ha
    rw [sadd, if_pos rfl, hb, Option.some.injEq, ← ha]
    norm_num
  · by_cases h2 : b = SExpr.num 0
    · subst h2
      rw [evalNumEnv_num, Option.some.injEq] at hb
      rw [sadd, if_neg h1, if_pos rfl, ha, Option.some.injEq, ← hb]
      norm_num
    · simp [sadd, h1, h2, evalNumEnv, ha, hb, bind]

theorem evalNumEnv_ssub (env : String → Option ℝ) (a b : SExpr)
    (va vb : ℝ) (ha : evalNumEnv env a = some va)
    (hb : evalNumEnv env b = some vb) :
    evalNumEnv env (ssub a b) = some (va - vb) := by
  by_cases h2 : b = SExpr.num 0
  · subst h2
    rw [evalNumEnv_num, Option.some.injEq] at hb
    rw [ssub, if_pos rfl, ha, Option.some.injEq, ← hb]
    norm_num
  · by_cases h1 : a = SExpr.num 0
    · subst h1
      rw [evalNumEnv_num, Option.some.injEq] at ha
      rw [ssub, if_neg h2, if_pos rfl]
      simp only [evalNumEnv, hb, Option.map_some', Option.some.injEq]
      rw [← ha]
      norm_num
    · simp [ssub, h1, h2, evalNumEnv, ha, hb, bind]

theorem evalNumEnv_smul (env : String → Option ℝ) (a b : SExpr)
    (va vb : ℝ) (ha : evalNumEnv env a = some va)
    (hb : evalNumEnv env b = some vb) :
    evalNumEnv env (smul a b) = some (va * vb) := by
  by_cases h0 : a = SExpr.num 0 ∨ b = SExpr.num 0
  · rcases h0 with h | h
    · subst h
      rw [evalNumEnv_num, Option.some.injEq] at ha
      rw [smul, if_pos (Or.inl rfl), evalNumEnv_num, Option.some.injEq, ← ha]
      norm_num
    · subst h
      rw [evalNumEnv_num, Option.some.injEq] at hb
      rw [smul, if_pos (Or.inr rfl), evalNumEnv_num, Option.some.injEq, ← hb]
      norm_num
  · by_cases h1 : a = SExpr.num 1
    · subst h1
      rw [evalNumEnv_num, Option.some.injEq] at ha
      rw [smul, if_neg h0, if_pos rfl, hb, Option.some.injEq, ← ha]
      norm_num
    · by_cases h2 : b = SExpr.num 1
      · subst h2
        rw [evalNumEnv_num, Option.some.injEq] at hb
        rw [smul, if_neg h0, if_neg h1, if_pos rfl, ha, Option.some.injEq,
          ← hb]
        norm_num
      · simp [smul, h0, h1, h2, evalNumEnv, ha, hb, bind]

theorem evalNumEnv_neg (env : String → Option ℝ) (a : SExpr)
    (va : ℝ) (ha : evalNumEnv env a = some va) :
    evalNumEnv env (.neg a) = some (-va) := by
  show (evalNumEnv env a).map (fun r => -r) = some (-va)
  rw [ha]
  rfl

theorem evalNumEnv_sneg (env : String → Option ℝ) (a : SExpr)
    (va : ℝ) (ha : evalNumEnv env a = some va) :
    evalNumEnv env (sneg a) = some (-va) := by
  match a with
  | .num q =>
    rw [evalNumEnv_num, Option.some.injEq] at ha
    show evalNumEnv env (.num (-q)) = some (-va)
    rw [evalNumEnv_num, Option.some.injEq, ← ha]
    norm_num
  | .sym n => exact evalNumEnv_neg env _ va ha
  | .cpi => exact evalNumEnv_neg env _ va ha
  | .ce => exact evalNumEnv_neg env _ va ha
  | .neg b => exact evalNumEnv_neg env _ va ha
  | .add b c => exact evalNumEnv_neg env _ va ha
  | .sub b c => exact evalNumEnv_neg env _ va ha
  | .mul b c => exact evalNumEnv_neg env _ va ha
  | .div b c => exact evalNumEnv_neg env _ va ha
  | .pow b c => exact evalNumEnv_neg env _ va ha
  | .app f b => exact evalNumEnv_neg env _ va ha

/-- Soundness of the symbolic derivative on the `polyF` fragment: the
denotation is everywhere defined, the derivative tree's denotation is
everywhere defined, and the latter is the analytic derivative of the
former. -/
theorem diffS_sound (x : String) :
    ∀ e : SExpr, polyF x e = true → ∀ t : ℝ,
      ∃ v d : ℝ, evalNumEnv (bindOne x t) e = some v ∧
        evalNumEnv (bindOne x t) (diffS x e) = some d ∧
        HasDerivAt (evalD x e) d t := by
  intro e
  induction e with
  | num q =>
    intro _ t
    refine ⟨(q : ℝ), ((0 : ℚ) : ℝ), rfl, rfl, ?_⟩
    have h0 : ((0 : ℚ) : ℝ) = 0 := by norm_num
    have hc : evalD x (.num q) = fun _ => (q : ℝ) := rfl
    rw [h0, hc]
    exact hasDerivAt_const t _
  | sym n =>
    intro hp t
    simp only [polyF, beq_iff_eq] at hp
    subst hp
    refine ⟨t, ((1 : ℚ) : ℝ), by simp [evalNumEnv, bindOne], ?_, ?_⟩
    · simp [diffS, evalNumEnv]
    · have h1 : ((1 : ℚ) : ℝ) = 1 := by norm_num
      have hc : evalD n (.sym n) = fun s => s := by
        funext s
        simp [evalD, evalNumEnv, bindOne]
      rw [h1, hc]
      exact hasDerivAt_id t
  | cpi => intro hp t; simp [polyF] at hp
  | ce => intro hp t; simp [polyF] at hp
  | neg a iha =>
    intro hp t
    have hpa : polyF x a = true := hp
    obtain ⟨va, da, hva, hda, hDa⟩ := iha hpa t
    refine ⟨-va, -da, evalNumEnv_neg _ _ _ hva, ?_, ?_⟩
    · show evalNumEnv (bindOne x t) (sneg (diffS x a)) = some (-da)
      exact evalNumEnv_sneg _ _ _ hda
    · have hc : evalD x (.neg a) = fun s => -(evalD x a s) := by
        funext s
        obtain ⟨vs, ds, hvs, _, _⟩ := iha hpa s
        simp [evalD, evalNumEnv_neg _ _ _ hvs, hvs]
      rw [hc]
      exact hDa.neg
  | add a b iha ihb =>
    intro hp t
    simp only [polyF, Bool.and_eq_true] at hp
    obtain ⟨va, da, hva, hda, hDa⟩ := iha hp.1 t
    obtain ⟨vb, db, hvb, hdb, hDb⟩ := ihb hp.2 t
    refine ⟨va + vb, da + db, by simp [evalNumEnv, hva, hvb, bind], ?_, ?_⟩
    · show evalNumEnv (bindOne x t) (sadd (diffS x a) (diffS x b)) =
        some (da + db)
      exact evalNumEnv_sadd _ _ _ _ _ hda hdb
    · have hc : evalD x (.add a b) = fun s => evalD x a s + evalD x b s := by
        funext s
        obtain ⟨vsa, _, hvsa, _, _⟩ := iha hp.1 s
        obtain ⟨vsb, _, hvsb, _, _⟩ := ihb hp.2 s
        simp [evalD, evalNumEnv, hvsa, hvsb, bind]
      rw [hc]
      exact hDa.add hDb
  | sub a b iha ihb =>
    intro hp t
    simp only [polyF, Bool.and_eq_true] at hp
    obtain ⟨va, da, hva, hda, hDa⟩ := iha hp.1 t
    obtain ⟨vb, db, hvb, hdb, hDb⟩ := ihb hp.2 t
    refine ⟨va - vb, da - db, by simp [evalNumEnv, hva, hvb, bind], ?_, ?_⟩
    · show evalNumEnv (bindOne x t) (ssub (diffS x a) (diffS x b)) =
        some (da - db)
      exact evalNumEnv_ssub _ _ _ _ _ hda hdb
    · have hc : evalD x (.sub a b) = fun s => evalD x a s - evalD x b s := by
        funext s
        obtain ⟨vsa, _, hvsa, _, _⟩ := iha hp.1 s
        obtain ⟨vsb, _, hvsb, _, _⟩ := ihb hp.2 s
        simp [evalD, evalNumEnv, hvsa, hvsb, bind]
      rw [hc]
      exact hDa.sub hDb
  | mul a b iha ihb =>
    intro hp t
    simp only [polyF, Bool.and_eq_true] at hp
    obtain ⟨va, da, hva, hda, hDa⟩ := iha hp.1 t
    obtain ⟨vb, db, hvb, hdb, hDb⟩ := ihb hp.2 t
    refine ⟨va * vb, da * vb + va * db,
      by simp [evalNumEnv, hva, hvb, bind], ?_, ?_⟩
    · show evalNumEnv (bindOne x t)
        (sadd (smul (diffS x a) b) (smul a (diffS x b))) =
        some (da * vb + va * db)
      exact evalNumEnv_sadd _ _ _ _ _
        (evalNumEnv_smul _ _ _ _ _ hda hvb)
        (evalNumEnv_smul _ _ _ _ _ hva hdb)
    · have hc : evalD x (.mul a b) = fun s => evalD x a s * evalD x b s := by
        funext s
        obtain ⟨vsa, _, hvsa, _, _⟩ := iha hp.1 s
        obtain ⟨vsb, _, hvsb, _, _⟩ := ihb hp.2 s
        simp [evalD, evalNumEnv, hvsa, hvsb, bind]
      have ea : evalD x a t = va := by simp [evalD, hva]
      have eb : evalD x b t = vb := by simp [evalD, hvb]
      rw [hc]
      have hD := hDa.mul hDb
      rwa [ea, eb] at hD
  | div a b iha ihb => intro hp t; simp [polyF] at hp
  | pow a b iha ihb => intro hp t; simp [polyF] at hp
  | app f a iha =>
    intro hp t
    simp only [polyF, Bool.and_eq_true, Bool.or_eq_true, beq_iff_eq] at hp
    obtain ⟨hf, hpa⟩ := hp
    obtain ⟨va, da, hva, hda, hDa⟩ := iha hpa t
    have ea : evalD x a t = va := by simp [evalD, hva]
    rcases hf with (hf | hf) | hf
    · subst hf
      refine ⟨Real.sin va, Real.cos va * da,
        by simp [evalNumEnv, sympyFn, hva, bind], ?_, ?_⟩
      · show evalNumEnv (bindOne x t)
          (smul (SExpr.app "cos" a) (diffS x a)) = some (Real.cos va * da)
        refine evalNumEnv_smul _ _ _ _ _ ?_ hda
        simp [evalNumEnv, sympyFn, hva, bind]
      · have hc : evalD x (.app "sin" a) = fun s => Real.sin (evalD x a s) := by
          funext s
          obtain ⟨vs, _, hvs, _, _⟩ := iha hpa s
          simp [evalD, evalNumEnv, sympyFn, hvs, bind]
        rw [hc]
        have hD := hDa.sin
        rwa [ea] at hD
    · subst hf
      refine ⟨Real.cos va, -Real.sin va * da,
        by simp [evalNumEnv, sympyFn, hva, bind], ?_, ?_⟩
      · show evalNumEnv (bindOne x t)
          (smul (sneg (SExpr.app "sin" a)) (diffS x a)) =
          some (-Real.sin va * da)
        refine evalNumEnv_smul _ _ _ _ _ ?_ hda
        refine evalNumEnv_sneg _ _ _ ?_
        simp [evalNumEnv, sympyFn, hva, bind]
      · have hc : evalD x (.app "cos" a) = fun s => Real.cos (evalD x a s) := by
          funext s
          obtain ⟨vs, _, hvs, _, _⟩ := iha hpa s
          simp [evalD, evalNumEnv, sympyFn, hvs, bind]
        rw [hc]
        have hD := hDa.cos
        rwa [ea] at hD
    · subst hf
      refine ⟨Real.exp va, Real.exp va * da,
        by simp [evalNumEnv, sympyFn, hva, bind], ?_, ?_⟩
      · show evalNumEnv (bindOne x t)
          (smul (SExpr.app "exp" a) (diffS x a)) = some (Real.exp va * da)
        refine evalNumEnv_smul _ _ _ _ _ ?_ hda
        simp [evalNumEnv, sympyFn, hva, bind]
      · have hc : evalD x (.app "exp" a) = fun s => Real.exp (evalD x a s) := by
          funext s
          obtain ⟨vs, _, hvs, _, _⟩ := iha hpa s
          simp [evalD, evalNumEnv, sympyFn, hvs, bind]
        rw [hc]
        have hD := hDa.exp
        rwa [ea] at hD

/-- C8: differentiation is an exact symbolic transformation — on the
whole `polyF` fragment the derivative tree denotes precisely the
analytic derivative of the expression's denotation (not a
finite-difference approximation) — and
`Differentiate("sin(x)", "x", 0)` returns the symbolic derivative
`cos(x)` together with the numeric value `1` at the point `0`. -/
theorem C8_symbolic_derivative :
    (∀ (x : String) (e : SExpr), polyF x e = true → ∀ t : ℝ,
      ∃ v d : ℝ, evalNumEnv (bindOne x t) e = some v ∧
        evalNumEnv (bindOne x t) (diffS x e) = some d ∧
        HasDerivAt (evalD x e) d t) ∧
    derivCore "sin(x)" "x" 0 = .ok (.app "cos" (.sym "x"), .numR 1) := by
  constructor
  · exact fun x e hp t => diffS_sound x e hp t
  · have hv : sympifyModel "x" = .ok (.sym "x") := by decide
    have hf : sympifyModel "sin(x)" = .ok (.app "sin" (.sym "x")) := by
      decide
    have hd : diffS "x" (.app "sin" (.sym "x")) = .app "cos" (.sym "x") := by
      simp [diffS, dtab, smul]
    have hsub : substS "x" (.num 0) (SExpr.app "cos" (SExpr.sym "x")) =
        .app "cos" (.num 0) := by
      simp [substS]
    have hev : evalfModel (SExpr.app "cos" (SExpr.num 0)) = .numR 1 := by
      simp [evalfModel, evalNumEnv, sympyFn, bind]
    simp [derivCore, hv, hf, bind, Except.bind, hd, hsub, hev]

/-- Witness for C8: the fragment statement applied to `sin(x)` at the
point `0`. -/
theorem C8_derivative_witness :
    polyF "x" (SExpr.app "sin" (SExpr.sym "x")) = true ∧
    ∃ v d : ℝ,
      evalNumEnv (bindOne "x" 0) (SExpr.app "sin" (SExpr.sym "x")) = some v ∧
      evalNumEnv (bindOne "x" 0)
        (diffS "x" (SExpr.app "sin" (SExpr.sym "x"))) = some d ∧
      HasDerivAt (evalD "x" (SExpr.app "sin" (SExpr.sym "x"))) d 0 :=
  ⟨by decide, C8_symbolic_derivative.1 "x" _ (by decide) 0⟩

/-! ## Claim C10: the success frame of the equals handler -/

/-- C10: when equals succeeds on a non-empty expression, exactly one
history entry is appended — the display-transformed expression, `" = "`,
and the formatted result — the in-progress expression is replaced by the
formatted result (so it can start the next expression), and nothing else
changes in the session state. -/
theorem C10_success_frame (fmt : PyVal → String) (st : CalcState) (v : PyVal)
    (hne : st.expression ≠ "")
    (h : safe_eval (normalizeEval st.expression) registryModel = .ok v) :
    (equalsH fmt st).1.history =
      st.history ++ [transform_display st.expression ++ " = " ++ fmt v] ∧
    (equalsH fmt st).1.expression = fmt v ∧
    (equalsH fmt st).2 = some (.ok v) ∧
    (equalsH fmt st).1.history.length = st.history.length + 1 := by
  simp [equalsH, hne, h]

/-- Witness for C10: `2*3` with one prior history line. -/
theorem C10_success_witness :
    (equalsH (fun _ => "6") ⟨"2*3", ["seed"]⟩).1.history =
      ["seed"] ++ [transform_display "2*3" ++ " = " ++ "6"] ∧
    (equalsH (fun _ => "6") ⟨"2*3", ["seed"]⟩).1.expression = "6" ∧
    (equalsH (fun _ => "6") ⟨"2*3", ["seed"]⟩).2 = some (.ok (.num 6)) ∧
    (equalsH (fun _ => "6") ⟨"2*3", ["seed"]⟩).1.history.length =
      (["seed"] : List String).length + 1 := by
  have hn : normalizeEval "2*3" = "2*3" := by decide
  have hp : sympifyModel "2*3" = .ok (.mul (.num 2) (.num 3)) := by decide
  have h : safe_eval (normalizeEval "2*3") registryModel = .ok (.num 6) := by
    rw [hn]
    simp [safe_eval, hp, evalSym, bind, Except.bind]
    norm_num
  exact C10_success_frame (fun _ => "6") ⟨"2*3", ["seed"]⟩ (.num 6)
    (by decide) h
